import Mathlib

/-!
Verification of the TinyR core against its specification.

This file gives a shallow embedding of the type-symbol lattice
(src/Core/TypeSymbol.py), the operator resolver fragments used by the
semantic checker (src/Core/Operator.py, src/Core/SemanticChecker.py) and
the array value model (src/Class/Array.py), and proves or refutes the
frozen claims about them.

Modelling conventions:
* Python `Optional[TSym]` results are `Option TSym`; a Python-level
  exception (AttributeError, IndexError, UnboundLocalError, ...) that the
  host would wrap as KERNEL_ERR is modelled as `Except.error`.
* Python numbers are modelled as `Int`; index rounding (`round`) is the
  identity on integers, and no claim involves fractional indices.
* The recursive array operations are embedded with an explicit fuel
  parameter (structural recursion on the fuel) so that all definitions
  are executable by kernel reduction; running out of fuel yields the
  distinguished error `Errno.fuelOut`, which no real execution path
  produces, and theorems quantify over sufficient fuel.
-/

namespace TinyR

/-- Tags of type symbols, mirroring enum `T` in src/Core/Type.py
(the field `TSym.__t`). -/
inductive Ttag where
  | num | bool | str | void | arr | strt | fn | na
deriving DecidableEq, Repr

/-- Type symbols, mirroring the `TSym` class hierarchy of
src/Core/TypeSymbol.py: `NumTSym`, `BoolTSym`, `StrTSym`, `VoidTSym`,
the NA placeholder (a bare `TSym()`), `ArrTSym(elem, dept)`,
`FunTSym(args, ret)` and `StrtTSym(elem)`.  The `ret` field of `fn` is an
`Option` because the Python field can hold `None` (this actually happens in
`TSym.sup`, see below); a properly constructed function type always has
`some` there.  Struct fields are an association list standing for the
Python dict (so well-formed values have no duplicate keys). -/
inductive TSym where
  | num
  | bool
  | str
  | void
  | na
  | arr (elem : TSym) (dept : Int)
  | fn (args : List TSym) (ret : Option TSym)
  | strt (elem : List (String × TSym))
deriving Repr

/-- The tag field `TSym.__t` (assigned by each constructor). -/
def TSym.t : TSym → Ttag
  | .num => .num
  | .bool => .bool
  | .str => .str
  | .void => .void
  | .na => .na
  | .arr _ _ => .arr
  | .fn _ _ => .fn
  | .strt _ => .strt

/-- The flag `TSym.__base`: true exactly for Num, Bool, Str, Void. -/
def TSym.base (a : TSym) : Bool :=
  a.t == .num || a.t == .bool || a.t == .str || a.t == .void

/-- The `elem` property; only read under a `t == ARR` guard in the
sources (the default branch is unreachable there). -/
def TSym.elemA : TSym → TSym
  | .arr e _ => e
  | _ => .na

/-- The `dept` property; only read under a `t == ARR` guard. -/
def TSym.deptA : TSym → Int
  | .arr _ d => d
  | _ => 0

mutual

/-- Structural equality `TSym.__eq__` (src/Core/TypeSymbol.py, lines
48-81), translated clause by clause: differing tags are unequal; equal
base tags are equal; for arrays only the tags of the element types and
the depths are compared (`self.elem.__t == other.elem.__t`); functions
compare argument lists pairwise and the `ret` fields; structs compare the
field dictionaries. -/
def TSym.eq : TSym → TSym → Bool
  | a, b =>
    if a.t != b.t then false
    else if a.base && b.base then true
    else match a, b with
      | .arr e1 d1, .arr e2 d2 => e1.t == e2.t && d1 == d2
      | .fn as1 r1, .fn as2 r2 => TSym.eqList as1 as2 && TSym.eqOpt r1 r2
      | .strt m1, .strt m2 => m1.length == m2.length && TSym.eqDict m1 m2
      | _, _ => false

/-- Python list equality: pointwise `__eq__`, same length. -/
def TSym.eqList : List TSym → List TSym → Bool
  | [], [] => true
  | a :: as1, b :: bs => TSym.eq a b && TSym.eqList as1 bs
  | _, _ => false

/-- Equality on the optional `ret` field.  (Comparing `None` against a
`TSym` would crash in Python; that combination never occurs on properly
constructed values, and we return false for it.) -/
def TSym.eqOpt : Option TSym → Option TSym → Bool
  | none, none => true
  | some a, some b => TSym.eq a b
  | _, _ => false

/-- Python dict equality of the `elem` field of two structs: every key of
the first maps to an equal value in the second (lengths are compared by
the caller). -/
def TSym.eqDict : List (String × TSym) → List (String × TSym) → Bool
  | [], _ => true
  | (k, v) :: rest, m2 =>
    (match m2.lookup k with
     | some w => TSym.eq v w
     | none => false) && TSym.eqDict rest m2

end

mutual

/-- Subtyping `TSym.__le__` (src/Core/TypeSymbol.py, lines 83-141),
clause by clause in the source's priority order: SubVoid, SubBoolNum,
SubEq (base), SubBaseArr / SubArr, SubFun, SubStrt, otherwise false.
When `other` is an array and `self` is neither base nor an array the
source falls through all clauses and returns false. -/
def TSym.le : TSym → TSym → Bool
  | a, b =>
    if a.t == .void then true
    else if a.t == .bool && b.t == .num then true
    else if a.base && b.base && a.eq b then true
    else match b with
      | .arr be bd =>
        if a.base then a.le be
        else match a with
          | .arr ae ad => ae.le be && decide (ad ≤ bd)
          | _ => false
      | _ =>
        match a, b with
        | .fn as1 r1, .fn as2 r2 =>
          as1.length == as2.length && TSym.leList as1 as2 && TSym.leOpt r1 r2
        | .strt m1, .strt m2 =>
          m1.length == m2.length && TSym.leDict m1 m2
        | _, _ => false

/-- Pairwise `<=` over the argument lists of two function types. -/
def TSym.leList : List TSym → List TSym → Bool
  | [], [] => true
  | a :: as1, b :: bs => TSym.le a b && TSym.leList as1 bs
  | _, _ => false

/-- Subtyping of the optional `ret` field (a `None` there would crash in
Python; we return false for it). -/
def TSym.leOpt : Option TSym → Option TSym → Bool
  | some a, some b => TSym.le a b
  | _, _ => false

/-- The SubStrt loop: every key of the first struct must be present in
the second with a `<=`-related value. -/
def TSym.leDict : List (String × TSym) → List (String × TSym) → Bool
  | [], _ => true
  | (k, v) :: rest, m2 =>
    (match m2.lookup k with
     | some w => TSym.le v w
     | none => false) && TSym.leDict rest m2

end

/-- Size bound for dictionary lookups, used for termination of the
supremum recursion. -/
theorem TSym.sizeOf_lookup {m : List (String × TSym)} {k : String} {w : TSym}
    (h : m.lookup k = some w) : sizeOf w < sizeOf m := by
  induction m with
  | nil => simp [List.lookup] at h
  | cons p rest ih =>
    obtain ⟨k', v⟩ := p
    rw [List.lookup] at h
    split at h
    · cases h
      simp
      omega
    · have := ih h
      simp
      omega

mutual

/-- Binary supremum: the two-element case of `TSym.sup`
(src/Core/TypeSymbol.py, lines 143-254).  Result `Except Unit (Option
TSym)`: `ok none` is the Python `None` (no supremum), `ok (some t)` a
returned symbol, and `error ()` a Python-level crash.  The function-type
branch reproduces two slips of the source verbatim: the final guard
tests `elem` (the supremum of the LAST argument pair, never `None` once
the loop completed) instead of `ret`, so a failed supremum of the return
types is wrapped into `FunTSym(args, None)` instead of failing; and for
0-ary function types the local `elem` is never assigned, so the guard
raises UnboundLocalError. -/
def TSym.supPair (a b : TSym) : Except Unit (Option TSym) :=
  if a.base then
    if b.base then
      if a.le b then .ok (some b)
      else if b.le a then .ok (some a)
      else .ok none
    else match b with
      | .arr be bd => do
        let s ← TSym.supPair a be
        .ok (s.map (fun e => .arr e bd))
      | _ => .ok none
  else match a with
    | .arr ae ad =>
      if b.base then do
        let s ← TSym.supPair ae b
        .ok (s.map (fun e => .arr e ad))
      else match b with
        | .arr be bd => do
          let s ← TSym.supPair ae be
          .ok (s.map (fun e => .arr e (max ad bd)))
        | _ => .ok none
    | .fn as1 r1 =>
      match b with
      | .fn as2 r2 =>
        if as1.length != as2.length then .ok none
        else do
          let args? ← TSym.supArgs as1 as2
          match args? with
          | none => .ok none
          | some args =>
            match r1, r2 with
            | some r1v, some r2v => do
              let ret ← TSym.supPair r1v r2v
              if as1.length == 0 then .error ()
              else .ok (some (.fn args ret))
            | _, _ => .error ()
      | _ => .ok none
    | .strt m1 =>
      match b with
      | .strt m2 =>
        if m1.length != m2.length then .ok none
        else do
          let d? ← TSym.supDict m1 m2
          .ok (d?.map .strt)
      | _ => .ok none
    | _ => .ok none
termination_by sizeOf a + sizeOf b
decreasing_by all_goals (simp <;> omega)

/-- The argument loop of the function-type branch of `TSym.sup`: pairwise
suprema, failing the whole computation as soon as one pair has none. -/
def TSym.supArgs : List TSym → List TSym → Except Unit (Option (List TSym))
  | [], [] => .ok (some [])
  | a :: as1, b :: bs => do
    let s ← TSym.supPair a b
    match s with
    | none => .ok none
    | some t => do
      let rest ← TSym.supArgs as1 bs
      .ok (rest.map (t :: ·))
  | _, _ => .ok none
termination_by l1 l2 => sizeOf l1 + sizeOf l2
decreasing_by all_goals (simp <;> omega)

/-- The per-field loop of the struct branch of `TSym.sup`. -/
def TSym.supDict : List (String × TSym) → List (String × TSym) →
    Except Unit (Option (List (String × TSym)))
  | [], _ => .ok (some [])
  | (k, v) :: rest, m2 =>
    match h : m2.lookup k with
    | none => .ok none
    | some w => do
      let s ← TSym.supPair v w
      match s with
      | none => .ok none
      | some t => do
        let d ← TSym.supDict rest m2
        .ok (d.map ((k, t) :: ·))
termination_by m1 m2 => sizeOf m1 + sizeOf m2
decreasing_by
  all_goals first
    | (have hlk := TSym.sizeOf_lookup h; simp <;> omega)
    | (simp <;> omega)

end

/-- The variadic wrapper `TSym.sup`: empty set has no supremum, a
singleton is its own supremum, longer sets left-fold pairwise. -/
def TSym.sup : List TSym → Except Unit (Option TSym)
  | [] => .ok none
  | [a] => .ok (some a)
  | [a, b] => TSym.supPair a b
  | a :: b :: c :: rest => do
    let t? ← TSym.sup ((a :: b :: c :: rest).dropLast)
    match t? with
    | none => .ok none
    | some t => TSym.supPair t ((a :: b :: c :: rest).getLastD .na)
termination_by l => l.length
decreasing_by
  simp only [List.length_dropLast, List.length_cons]
  omega

/-- Operator kinds (enum `OpT` in src/Core/Type.py), restricted to the two
members the modelled fragments dispatch on; all that matters for them is
that `ASGN` and `IDX` are distinct members. -/
inductive OpT where
  | idx | asgn
deriving DecidableEq, Repr

/-- Error kinds (enum `Errno` in src/Core/Type.py) raised by the modelled
code, with their structured detail payloads where the source passes them.
`kernelErr` stands for a Python-level exception escaping a bound
operation (wrapped as KERNEL_ERR by the host); `fuelOut` is an artifact
of the fuelled embedding and corresponds to no source behaviour. -/
inductive Errno where
  | notDefine
  | invalidLVal
  | asgnTMiss
  | asgnNMiss (need given : Nat)
  | inhomoElem
  | sgntrNFound
  | dimMismatch
  | emptyIdx
  | idxBound (idx : Int)
  | kernelErr
  | fuelOut
deriving DecidableEq, Repr

/-- The indexing type rule `Sp.__t_chk_hlpr_idx` (src/Core/Operator.py,
lines 551-570): start from `max(t1.dept, len(t2))` for an array target
else `len(t2)`; walk the index types in order, skipping `Void`,
decrementing for `<: Num`, skipping for `<: Arr[Num, 1]`, failing
otherwise; wrap the element type back into an array if the resulting
depth is positive. -/
def Sp.tChkHlprIdxLoop (dept : Int) : List TSym → Option Int
  | [] => some dept
  | t :: rest =>
    if t.eq .void then Sp.tChkHlprIdxLoop dept rest
    else if t.le .num then Sp.tChkHlprIdxLoop (dept - 1) rest
    else if t.le (.arr .num 1) then Sp.tChkHlprIdxLoop dept rest
    else none

/-- The wrapper of the indexing type rule: initial depth and final
re-wrapping, as in `Sp.__t_chk_hlpr_idx`. -/
def Sp.tChkHlprIdx (t1 : TSym) (t2 : List TSym) : Option TSym :=
  let dept : Int := if t1.t == .arr then max t1.deptA (t2.length : Int) else (t2.length : Int)
  match Sp.tChkHlprIdxLoop dept t2 with
  | none => none
  | some d =>
    if t1.t == .arr then
      if d > 0 then some (.arr t1.elemA d) else some t1.elemA
    else
      if d > 0 then some (.arr t1 d) else some t1

/-- The type component of `Sp.t_chk` (src/Core/Operator.py, lines
572-583): with at least two argument types it handles `OpT.IDX` via the
indexing rule and returns `None` for every other operator - including
`OpT.ASGN`. -/
def Sp.tChk (op : OpT) (arg : List TSym) : Option TSym :=
  if arg.length ≥ 2 then
    if op == .idx then
      match arg with
      | t1 :: rest => Sp.tChkHlprIdx t1 rest
      | [] => none
    else none
  else none

/-- The decision core of `SemanticChk.__chk_asgn` (src/Core/SemanticChecker.py,
lines 283-301), after both children have been checked: `tarIsVarTok` is
whether the left child's token is a bare `VAR` token, `tarT`/`valT` are
the two children's inferred types.  On success the result carries the
node's resulting type (`ast.t = val_t`) and a flag telling whether the
variable's type was (re)bound in the symbol table (the `[TAsgn]` branch);
the `[TAsgnIdx]` branch consults `Sp.t_chk` with `OpT.ASGN` and raises
`ASGN_T_MISS` when that returns `None`. -/
def SemanticChk.chkAsgn (tarIsVarTok : Bool) (tarT valT : TSym) :
    Except Errno (TSym × Bool) :=
  if valT.t == .na then .error .notDefine
  else if tarT.t == .na || tarIsVarTok then .ok (valT, true)
  else match Sp.tChk .asgn [tarT, valT] with
    | none => .error .asgnTMiss
    | some _ => .ok (valT, false)

/-- Claim C1: the source's own inference rule `[TAsgnIdx]` says an
assignment to an indexed target with known type succeeds exactly when the
value's type is a subtype of the target's type, and fails with
`ASGN_T_MISS` otherwise.  The code however routes the check through
`Sp.t_chk` with operator `OpT.ASGN`, which `Sp.t_chk` does not handle
(it only handles `OpT.IDX`), so the check returns `(None, None)` and the
assignment `m[0,0] = 1` with target type `Num` and value type `Num`
raises `ASGN_T_MISS` even though `Num <: Num` holds; the third conjunct
shows `Sp.t_chk` rejects every `ASGN` query. -/
theorem c1_indexed_assignment_always_fails :
    SemanticChk.chkAsgn false .num .num = .error .asgnTMiss ∧
    TSym.le .num .num = true ∧
    (∀ a b : TSym, Sp.tChk .asgn [a, b] = none) := by
  refine ⟨rfl, ?_, fun a b => rfl⟩
  simp [TSym.le, TSym.eq, TSym.t, TSym.base]

/-- Claim C4: for two function types of the same positive arity whose
argument suprema exist but whose return types have no supremum, `TSym.sup`
is documented to return `None`; instead the final guard of the source
tests the wrong local (`elem`, the last argument-pair supremum) and the
code returns the malformed symbol `FunTSym([Num], None)`.  For two 0-ary
function types the same guard reads an unassigned local and the call
crashes (UnboundLocalError) even when the supremum exists.  The third
conjunct checks the premise that `Num` and `Str` have no supremum. -/
theorem c4_sup_function_branch_misbehaves :
    TSym.supPair (.fn [.num] (some .num)) (.fn [.num] (some .str)) =
      .ok (some (.fn [.num] none)) ∧
    TSym.supPair (.fn [] (some .num)) (.fn [] (some .num)) = .error () ∧
    TSym.supPair .num .str = .ok none := by
  refine ⟨?_, ?_, ?_⟩ <;>
    simp only [TSym.supPair, TSym.supArgs, TSym.le, TSym.eq, TSym.t, TSym.base] <;>
    rfl

/-- Claim C5, counterexample: two array type symbols whose element types
are structurally different function types (different return types) are
reported equal by `TSym.__eq__`, because the array clause compares only
the element types' tags (`self.elem.__t == other.elem.__t`); the second
conjunct shows the two element types are indeed not structurally equal. -/
theorem c5_array_eq_counterexample :
    TSym.eq (.arr (.fn [] (some .num)) 1) (.arr (.fn [] (some .str)) 1) = true ∧
    TSym.eq (.fn [] (some .num)) (.fn [] (some .str)) = false := by
  constructor <;>
    simp [TSym.eq, TSym.eqList, TSym.eqOpt, TSym.t, TSym.base]

/-- Claim C5, amended: equality of two array type symbols holds iff the
element types carry the same tag and the depths are equal; for base
element types (the only ones an array type can carry in a checked
program) tag equality coincides with structural equality, so the claimed
characterisation is recovered there. -/
theorem c5_array_eq_characterization :
    (∀ e1 d1 e2 d2,
      TSym.eq (.arr e1 d1) (.arr e2 d2) = (e1.t == e2.t && d1 == d2)) ∧
    (∀ e1 d1 e2 d2, e1.base = true → e2.base = true →
      (TSym.eq (.arr e1 d1) (.arr e2 d2) = true ↔
        (TSym.eq e1 e2 = true ∧ d1 = d2))) := by
  have harr : ∀ e1 d1 e2 d2,
      TSym.eq (.arr e1 d1) (.arr e2 d2) = (e1.t == e2.t && d1 == d2) := by
    intro e1 d1 e2 d2
    simp [TSym.eq, TSym.t, TSym.base]
  refine ⟨harr, ?_⟩
  intro e1 d1 e2 d2 hb1 hb2
  rw [harr]
  have heq : TSym.eq e1 e2 = (e1.t == e2.t) := by
    cases e1 <;> cases e2 <;> simp_all [TSym.eq, TSym.t, TSym.base]
  rw [heq]
  constructor
  · intro h
    simp only [Bool.and_eq_true, beq_iff_eq] at h
    exact ⟨by simp [h.1], h.2⟩
  · rintro ⟨h1, h2⟩
    simp only [Bool.and_eq_true, beq_iff_eq]
    exact ⟨by simpa using h1, h2⟩

/-- The indexing type rule exactly as the specification words it: check
that every index type is admissible (`Void`, `<: Num`, or
`<: Arr[Num, 1]`, in that order of classification), count the
dimension-dropping indices (those `<: Num` that are not `Void`), subtract
them from the effective depth, and re-wrap.  This is the spec-side twin
of `Sp.tChkHlprIdx`, written for the refinement comparison of claim C7. -/
def idxRuleSpec (t1 : TSym) (t2 : List TSym) : Option TSym :=
  if t2.all (fun t => t.eq .void || t.le .num || t.le (.arr .num 1)) then
    let start : Int := if t1.t == .arr then max t1.deptA (t2.length : Int) else (t2.length : Int)
    let drops : Int := ((t2.filter (fun t => !t.eq .void && t.le .num)).length : Int)
    let d := start - drops
    let elemT := if t1.t == .arr then t1.elemA else t1
    if d > 0 then some (.arr elemT d) else some elemT
  else none

/-- The accumulator loop of the indexing rule computes exactly
"subtract the number of dropping indices, or fail on an inadmissible
index type". -/
theorem tChkHlprIdxLoop_spec (l : List TSym) : ∀ d : Int,
    Sp.tChkHlprIdxLoop d l =
      (if l.all (fun t => t.eq .void || t.le .num || t.le (.arr .num 1)) then
        some (d - ((l.filter (fun t => !t.eq .void && t.le .num)).length : Int))
      else none) := by
  induction l with
  | nil => intro d; simp [Sp.tChkHlprIdxLoop]
  | cons t rest ih =>
    intro d
    by_cases hv : t.eq .void = true
    · simp [Sp.tChkHlprIdxLoop, hv, ih]
    · by_cases hn : t.le .num = true
      · simp only [Sp.tChkHlprIdxLoop, hv, hn, if_false, if_true, Bool.false_eq_true, ih]
        by_cases hall : rest.all (fun t => t.eq .void || t.le .num || t.le (.arr .num 1)) = true
        · simp [hall, hv, hn, List.filter]
          omega
        · simp [hall, hv, hn]
      · by_cases ha : t.le (.arr .num 1) = true
        · simp [Sp.tChkHlprIdxLoop, hv, hn, ha, ih, List.filter]
        · simp [Sp.tChkHlprIdxLoop, hv, hn, ha]

/-- Witness for claim C5 at concrete array types with base element
types: equality of `Array(Num, 1)` with itself and its characterisation
against `Array(Str, 1)`. -/
theorem c5_witness :
    (TSym.eq (.arr .num 1) (.arr .num 1) =
      ((TSym.num.t == TSym.num.t) && ((1 : Int) == 1))) ∧
    (TSym.base .num = true ∧ TSym.base .str = true) ∧
    (TSym.eq (.arr .num 1) (.arr .str 1) = true ↔
      (TSym.eq .num .str = true ∧ (1 : Int) = 1)) :=
  ⟨c5_array_eq_characterization.1 .num 1 .num 1, ⟨rfl, rfl⟩,
    c5_array_eq_characterization.2 .num 1 .str 1 rfl rfl⟩

/-- Claim C7: the resolver's indexing type rule agrees with the
specification's description on every target type and every list of index
types: effective depth `max(t1.dept, len(t2))` for array targets else
`len(t2)`; `Void` contributes nothing, `<: Num` drops a dimension,
`<: Arr[Num, 1]` contributes nothing, anything else fails; positive
remaining depth re-wraps the element type, otherwise the bare element
type is returned. -/
theorem c7_indexing_rule_matches_spec :
    ∀ (t1 : TSym) (t2 : List TSym), Sp.tChkHlprIdx t1 t2 = idxRuleSpec t1 t2 := by
  intro t1 t2
  rw [Sp.tChkHlprIdx, idxRuleSpec, tChkHlprIdxLoop_spec]
  by_cases hall : t2.all (fun t => t.eq .void || t.le .num || t.le (.arr .num 1)) = true
  · simp only [hall, if_true]
    by_cases harr : t1.t = Ttag.arr <;> simp [harr]
  · simp [hall]

mutual

/-- NA-freeness of a type symbol: no `NA` occurs anywhere inside. -/
def TSym.naFree : TSym → Bool
  | .na => false
  | .arr e _ => e.naFree
  | .fn args ret =>
    TSym.naFreeList args &&
      (match ret with
       | some r => r.naFree
       | none => true)
  | .strt m => TSym.naFreeDict m
  | .num => true
  | .bool => true
  | .str => true
  | .void => true

/-- NA-freeness of a list of type symbols. -/
def TSym.naFreeList : List TSym → Bool
  | [] => true
  | a :: rest => a.naFree && TSym.naFreeList rest

/-- NA-freeness of the fields of a struct type. -/
def TSym.naFreeDict : List (String × TSym) → Bool
  | [] => true
  | (_, v) :: rest => v.naFree && TSym.naFreeDict rest

end

/-- The field names of a struct type symbol have no duplicates - true of
every value the source can build, since the fields live in a Python dict. -/
def TSym.keysNodup : List (String × TSym) → Bool
  | [] => true
  | (k, _) :: rest => (rest.lookup k).isNone && TSym.keysNodup rest

mutual

/-- Well-formedness of a type symbol as a value the Python constructors
can produce: every function type carries an actual return type (the
field is not `None`), and struct fields, coming from a dict, have
pairwise distinct names. -/
def TSym.wf : TSym → Bool
  | .arr e _ => e.wf
  | .fn args ret =>
    TSym.wfList args &&
      (match ret with
       | some r => r.wf
       | none => false)
  | .strt m => TSym.keysNodup m && TSym.wfDict m
  | .num => true
  | .bool => true
  | .str => true
  | .void => true
  | .na => true

/-- Well-formedness of a list of type symbols. -/
def TSym.wfList : List TSym → Bool
  | [] => true
  | a :: rest => a.wf && TSym.wfList rest

/-- Well-formedness of the fields of a struct type. -/
def TSym.wfDict : List (String × TSym) → Bool
  | [] => true
  | (_, v) :: rest => v.wf && TSym.wfDict rest

end

/-- Membership in an NA-free list gives NA-freeness of the member. -/
theorem TSym.naFreeList_mem {l : List TSym} {a : TSym}
    (h : TSym.naFreeList l = true) (hm : a ∈ l) : a.naFree = true := by
  induction l with
  | nil => cases hm
  | cons b rest ih =>
    rw [TSym.naFreeList, Bool.and_eq_true] at h
    rcases hm with _ | hm
    · exact h.1
    · exact ih h.2 (by assumption)

/-- Membership in a well-formed list gives well-formedness of the member. -/
theorem TSym.wfList_mem {l : List TSym} {a : TSym}
    (h : TSym.wfList l = true) (hm : a ∈ l) : a.wf = true := by
  induction l with
  | nil => cases hm
  | cons b rest ih =>
    rw [TSym.wfList, Bool.and_eq_true] at h
    rcases hm with _ | hm
    · exact h.1
    · exact ih h.2 (by assumption)

/-- Membership in an NA-free dictionary gives NA-freeness of the value. -/
theorem TSym.naFreeDict_mem {m : List (String × TSym)} {k : String} {v : TSym}
    (h : TSym.naFreeDict m = true) (hm : (k, v) ∈ m) : v.naFree = true := by
  induction m with
  | nil => cases hm
  | cons p rest ih =>
    obtain ⟨k', v'⟩ := p
    rw [TSym.naFreeDict, Bool.and_eq_true] at h
    rcases hm with _ | hm
    · exact h.1
    · exact ih h.2 (by assumption)

/-- Membership in a well-formed dictionary gives well-formedness of the
value. -/
theorem TSym.wfDict_mem {m : List (String × TSym)} {k : String} {v : TSym}
    (h : TSym.wfDict m = true) (hm : (k, v) ∈ m) : v.wf = true := by
  induction m with
  | nil => cases hm
  | cons p rest ih =>
    obtain ⟨k', v'⟩ := p
    rw [TSym.wfDict, Bool.and_eq_true] at h
    rcases hm with _ | hm
    · exact h.1
    · exact ih h.2 (by assumption)

/-- A present key makes the association-list lookup succeed. -/
theorem TSym.lookup_mem_isSome {m : List (String × TSym)} {k : String} {v : TSym}
    (hm : (k, v) ∈ m) : (m.lookup k).isSome = true := by
  induction m with
  | nil => cases hm
  | cons p rest ih =>
    obtain ⟨k', v'⟩ := p
    rcases hm with _ | hm
    · simp [List.lookup]
    · rw [List.lookup]
      split
      · simp
      · exact ih (by assumption)

/-- In a duplicate-free dictionary, lookup of a present key returns the
stored value. -/
theorem TSym.lookup_of_nodup {m : List (String × TSym)} {k : String} {v : TSym}
    (hn : TSym.keysNodup m = true) (hm : (k, v) ∈ m) : m.lookup k = some v := by
  induction m with
  | nil => cases hm
  | cons p rest ih =>
    obtain ⟨k', v'⟩ := p
    rw [TSym.keysNodup, Bool.and_eq_true] at hn
    rcases hm with _ | hm
    · simp [List.lookup]
    · have hm' : (k, v) ∈ rest := by assumption
      have hne : k ≠ k' := by
        intro he
        subst he
        have hs := TSym.lookup_mem_isSome hm'
        rw [Option.isNone_iff_eq_none] at hn
        rw [hn.1] at hs
        simp at hs
      have hkk : (k == k') = false := by simp [hne]
      rw [List.lookup, hkk]
      exact ih hn.2 hm'

/-- Pointwise self-subtyping of a list lifts to `leList`. -/
theorem TSym.leList_of {l : List TSym} (h : ∀ a ∈ l, TSym.le a a = true) :
    TSym.leList l l = true := by
  induction l with
  | nil => simp [TSym.leList]
  | cons a rest ih =>
    rw [TSym.leList, Bool.and_eq_true]
    exact ⟨h a (by simp), ih (fun b hb => h b (by simp [hb]))⟩

/-- Pointwise facts about the entries of a struct dictionary lift to
`leDict`. -/
theorem TSym.leDict_of {sub m : List (String × TSym)}
    (h : ∀ k v, (k, v) ∈ sub → m.lookup k = some v ∧ TSym.le v v = true) :
    TSym.leDict sub m = true := by
  induction sub with
  | nil => simp [TSym.leDict]
  | cons p rest ih =>
    obtain ⟨k, v⟩ := p
    have hp := h k v (by simp)
    rw [TSym.leDict, hp.1, Bool.and_eq_true]
    exact ⟨hp.2, ih (fun k' v' hm => h k' v' (by simp [hm]))⟩

/-- Reflexivity of the subtype relation on NA-free well-formed type
symbols, by structural recursion. -/
theorem TSym.le_refl : ∀ (t : TSym), t.wf = true → t.naFree = true →
    TSym.le t t = true
  | .num, _, _ => by simp [TSym.le, TSym.eq, TSym.t, TSym.base]
  | .bool, _, _ => by simp [TSym.le, TSym.eq, TSym.t, TSym.base]
  | .str, _, _ => by simp [TSym.le, TSym.eq, TSym.t, TSym.base]
  | .void, _, _ => by simp [TSym.le, TSym.t]
  | .na, _, hn => by simp [TSym.naFree] at hn
  | .arr e d, hw, hn => by
    simp only [TSym.wf] at hw
    simp only [TSym.naFree] at hn
    have ih := TSym.le_refl e hw hn
    simp [TSym.le, TSym.t, TSym.base, ih]
  | .fn args ret, hw, hn => by
    cases ret with
    | none => simp [TSym.wf] at hw
    | some r =>
      simp only [TSym.wf, Bool.and_eq_true] at hw
      simp only [TSym.naFree, Bool.and_eq_true] at hn
      have ihr := TSym.le_refl r hw.2 hn.2
      have ihl : TSym.leList args args = true :=
        TSym.leList_of (fun a hmem =>
          TSym.le_refl a (TSym.wfList_mem hw.1 hmem) (TSym.naFreeList_mem hn.1 hmem))
      simp [TSym.le, TSym.t, TSym.base, TSym.leOpt, ihl, ihr]
  | .strt m, hw, hn => by
    simp only [TSym.wf, Bool.and_eq_true] at hw
    simp only [TSym.naFree] at hn
    have ihd : TSym.leDict m m = true :=
      TSym.leDict_of (fun k v hmem =>
        ⟨TSym.lookup_of_nodup hw.1 hmem,
         TSym.le_refl v (TSym.wfDict_mem hw.2 hmem) (TSym.naFreeDict_mem hn hmem)⟩)
    simp [TSym.le, TSym.t, TSym.base, ihd]
termination_by t => sizeOf t
decreasing_by
  all_goals subst_vars
  all_goals first
    | (simp <;> omega)
    | (have hsz := List.sizeOf_lt_of_mem hmem; simp at hsz ⊢ <;> omega)

/-- Claim C8: on every NA-free, well-formed type symbol the subtype
relation is reflexive, and `Void` is below every such type
(well-formedness asks only what the Python constructors guarantee:
function types carry a real return type and struct field names are the
keys of a dict, hence duplicate-free). -/
theorem c8_subtype_refl_void_bottom :
    ∀ t : TSym, t.wf = true → t.naFree = true →
      TSym.le t t = true ∧ TSym.le .void t = true :=
  fun t hw hn => ⟨TSym.le_refl t hw hn, by rw [TSym.le.eq_def]; simp [TSym.t]⟩

/-- Witness for claim C8 at a concrete struct type with an array field
and a function field. -/
theorem c8_witness :
    (TSym.wf (.strt [("a", .arr .num 2), ("b", .fn [.num] (some .str))]) = true ∧
     TSym.naFree (.strt [("a", .arr .num 2), ("b", .fn [.num] (some .str))]) = true) ∧
    (TSym.le (.strt [("a", .arr .num 2), ("b", .fn [.num] (some .str))])
        (.strt [("a", .arr .num 2), ("b", .fn [.num] (some .str))]) = true ∧
     TSym.le .void (.strt [("a", .arr .num 2), ("b", .fn [.num] (some .str))]) = true) := by
  have hw : TSym.wf (.strt [("a", .arr .num 2), ("b", .fn [.num] (some .str))]) = true := by
    simp [TSym.wf, TSym.wfList, TSym.wfDict, TSym.keysNodup, List.lookup]
  have hn : TSym.naFree (.strt [("a", .arr .num 2), ("b", .fn [.num] (some .str))]) = true := by
    simp [TSym.naFree, TSym.naFreeList, TSym.naFreeDict]
  exact ⟨⟨hw, hn⟩, c8_subtype_refl_void_bottom _ hw hn⟩

/-- Runtime array values (src/Class/Array.py): the classes `Vec`, `Mat`
and `Arr` are one recursive family, each carrying an element list and an
explicit dimension list `_dim`; `sc` is a raw Python scalar sitting in a
`Vec` (all scalar payloads are modelled as `Int`), and `pynone` is the
Python `None` object (returned, for instance, by `Vec.degrade` on an
empty vector).  The class tags matter: the source dispatches on
`type(x) == Vec/Mat/Arr` and `isinstance` tests. -/
inductive Obj where
  | sc (v : Int)
  | pynone
  | vec (elem : List Obj) (dim : List Nat)
  | mat (elem : List Obj) (dim : List Nat)
  | arr (elem : List Obj) (dim : List Nat)
deriving Repr

/-- The element list `_elem` (empty for non-array objects). -/
def Obj.elemL : Obj → List Obj
  | .vec e _ => e
  | .mat e _ => e
  | .arr e _ => e
  | _ => []

/-- The dimension list `_dim` (empty for non-array objects). -/
def Obj.dim : Obj → List Nat
  | .vec _ d => d
  | .mat _ d => d
  | .arr _ d => d
  | _ => []

/-- The depth property `dept` = `len(self._dim)`. -/
def Obj.dept (o : Obj) : Nat := o.dim.length

/-- The leading dimension `self._dim[0]` (guarded nonempty in the
source at every use). -/
def Obj.dim0 (o : Obj) : Nat := o.dim.headD 0

/-- The test `isinstance(x, Arr)`. -/
def Obj.isArrInst : Obj → Bool
  | .vec _ _ => true
  | .mat _ _ => true
  | .arr _ _ => true
  | _ => false

/-- The test `isinstance(x, Mat)` (true for `Vec` and `Mat`). -/
def Obj.isMatInst : Obj → Bool
  | .vec _ _ => true
  | .mat _ _ => true
  | _ => false

/-- The exact-class test `type(x) == Vec`. -/
def Obj.isVecT : Obj → Bool
  | .vec _ _ => true
  | _ => false

/-- The exact-class test `type(x) == Mat`. -/
def Obj.isMatT : Obj → Bool
  | .mat _ _ => true
  | _ => false

/-- The exact-class test `type(x) == Arr`. -/
def Obj.isArrT : Obj → Bool
  | .arr _ _ => true
  | _ => false

/-- The constructor call `Vec(elem)`: `Vec.__init__` sets
`_dim = [len(elem)]`. -/
def mkVec (elem : List Obj) : Obj := .vec elem [elem.length]

/-- Index-chain entries: `None` (the `All` selector), a `Vec` of indices
(the `List` selector, carried here as its already-rounded integer
elements), or a single number (the `Single` selector). -/
inductive Sel where
  | all
  | list (idx : List Int)
  | single (i : Int)
deriving Repr

/-- Promotion (src/Class/Array.py): `Arr.promote` (lines 400-416) loops
`res = Arr([res], [1, *res._dim])`; `Mat.promote` (line 917) wraps once
into an `Arr` and recurses; `Vec.promote` (line 1446) wraps once into
`Mat([self], [1, self._dim[0]])` and recurses.  All three return `self`
when `n` is zero, and promotion is never invoked on scalars. -/
def Obj.promote : Obj → Nat → Obj
  | o, 0 => o
  | .vec e d, n + 1 => Obj.promote (.mat [.vec e d] [1, d.headD 0]) n
  | .mat e d, n + 1 => Obj.promote (.arr [.mat e d] (1 :: d)) n
  | .arr e d, n + 1 => Obj.promote (.arr [.arr e d] (1 :: d)) n
  | o, _ + 1 => o

/-- Degradation (src/Class/Array.py, lines 418-439, 920-921, 1449-1453).
`Vec.degrade` returns the first element (or Python `None` when empty);
`Mat.degrade` is `self._elem[0].degrade(n - 1) if n > 0 else self`;
`Arr.degrade` runs a loop that - reproducing the source verbatim -
re-reads `self._elem[0]` on every pass instead of descending through
`res`, so after the first pass `res` never changes again unless it is a
`Mat` (in which case the loop returns `res.degrade(n)` with the
remaining count).  The loop therefore collapses to: read the first
child; if it is exactly a `Mat`, continue degrading it with `n - 1`;
otherwise return it, no matter how many strips remain.  A missing first
element is a Python IndexError (`kernelErr`). -/
def Obj.degrade : Obj → Nat → Except Errno Obj
  | .vec e d, n =>
    if n > 0 then
      if d.headD 0 != 0 then
        match e.head? with
        | some x => .ok x
        | none => .error .kernelErr
      else .ok .pynone
    else .ok (.vec e d)
  | .mat e d, 0 => .ok (.mat e d)
  | .mat e _, n + 1 =>
    match e.head? with
    | some r => Obj.degrade r n
    | none => .error .kernelErr
  | .arr e d, 0 => .ok (.arr e d)
  | .arr e _, n + 1 =>
    match e.head? with
    | some r => if r.isMatT then Obj.degrade r n else .ok r
    | none => .error .kernelErr
  | _, _ => .error .kernelErr

/-- Claim C2: `degrade` is documented (and specified) to strip exactly
`n` leading size-1 axes, so `degrade(promote(v, n), n) == v` should hold
for every array value and every `n ≥ 0`.  It fails: for the 1-by-1
matrix `m` and `n = 2`, the loop bug in `Arr.degrade` (it re-reads
`self._elem[0]` instead of descending) returns `promote(m, 1)` - still
wrapped in one spurious axis - rather than `m`; the final conjunct shows
the returned value is not `m`.  (For `n ≤ 1` the round trip does hold;
the bug needs two consecutive `Arr`-level strips.) -/
theorem c2_degrade_promote_roundtrip_fails :
    Obj.promote (.mat [mkVec [.sc 1]] [1, 1]) 2 =
      .arr [.arr [.mat [mkVec [.sc 1]] [1, 1]] [1, 1, 1]] [1, 1, 1, 1] ∧
    Obj.degrade (Obj.promote (.mat [mkVec [.sc 1]] [1, 1]) 2) 2 =
      .ok (Obj.promote (.mat [mkVec [.sc 1]] [1, 1]) 1) ∧
    Obj.promote (.mat [mkVec [.sc 1]] [1, 1]) 1 ≠ .mat [mkVec [.sc 1]] [1, 1] := by
  refine ⟨rfl, rfl, ?_⟩
  intro h
  simp [Obj.promote] at h

/-- Python list subscription `l[i]` under a prior `0 <= i < dim[0]`
bounds check; an access past the actual list length is an IndexError. -/
def getEl (l : List Obj) (i : Int) : Except Errno Obj :=
  match l.get? i.toNat with
  | some x => .ok x
  | none => .error .kernelErr

/-- Python list item assignment `l[i] = x` (IndexError past the end). -/
def setEl (l : List Obj) (i : Int) (x : Obj) : Except Errno (List Obj) :=
  if i.toNat < l.length then .ok (l.set i.toNat x) else .error .kernelErr

/-- The re-wrapping of a list of indexing results in `Arr.get` (lines
226-231 and 248-253): inspect `type(res[0])` - IndexError on an empty
result list - and build `Mat(res, [len(res), *res[0].dim])` over `Vec`
results, `Arr(...)` over `Mat`/`Arr` results, else `Vec(res)`. -/
def wrapRes (res : List Obj) : Except Errno Obj :=
  match res.head? with
  | none => .error .kernelErr
  | some r0 =>
    if r0.isVecT then .ok (.mat res (res.length :: r0.dim))
    else if r0.isMatT || r0.isArrT then .ok (.arr res (res.length :: r0.dim))
    else .ok (mkVec res)

/-- Indexing: `Arr.get` (src/Class/Array.py, lines 191-261, also used by
`Mat`) and `Vec.get` (lines 1314-1358), dispatched on the class tag like
Python method resolution.  `Vec.get` promotes when the chain is longer
than 1 and otherwise handles the three base cases; `Arr.get` promotes by
`len(idx) - self.dept`, right-pads the chain with `All`, and recurses
into the children, re-wrapping via `wrapRes` for the non-dropping
selectors.  The fuel only bounds the recursion depth. -/
def Obj.getF : Nat → Obj → List Sel → Except Errno Obj
  | 0, _, _ => .error .fuelOut
  | fuel + 1, o, idx =>
    match o with
    | .vec e d =>
      if idx.length > 1 then Obj.getF fuel (o.promote (idx.length - 1)) idx
      else
        match idx with
        | [] => .error .kernelErr
        | s :: _ =>
          match s with
          | .all => .ok (mkVec e)
          | .list ids =>
            if ids.length == 0 then .error .emptyIdx
            else do
              let res ← ids.foldlM (fun acc i =>
                if i < 0 || i ≥ (d.headD 0 : Int) then throw (Errno.idxBound i)
                else do
                  let x ← getEl e i
                  pure (acc ++ [x])) ([] : List Obj)
              .ok (mkVec res)
          | .single i =>
            if i < 0 || i ≥ (d.headD 0 : Int) then .error (.idxBound i)
            else getEl e i
    | .mat e d | .arr e d =>
      if idx.length > d.length then Obj.getF fuel (o.promote (idx.length - d.length)) idx
      else
        match idx ++ List.replicate (d.length - idx.length) Sel.all with
        | [] => .error .kernelErr
        | s :: rest =>
          match s with
          | .all => do
            let res ← e.mapM (fun it => Obj.getF fuel it rest)
            wrapRes res
          | .list ids =>
            if ids.length == 0 then .error .emptyIdx
            else do
              let res ← ids.foldlM (fun acc i =>
                if i < 0 || i ≥ (d.headD 0 : Int) then throw (Errno.idxBound i)
                else do
                  let it ← getEl e i
                  let r ← Obj.getF fuel it rest
                  pure (acc ++ [r])) ([] : List Obj)
              wrapRes res
          | .single i =>
            if i < 0 || i ≥ (d.headD 0 : Int) then .error (.idxBound i)
            else do
              let it ← getEl e i
              Obj.getF fuel it rest
    | _ => .error .kernelErr

/-- Updating: `Vec.update` (src/Class/Array.py, lines 1366-1438),
`Mat.update` (lines 824-909) and `Arr.update` (lines 286-386), each
translated clause by clause with the class dispatch of the source:
`Vec.update` promotes by `len(idx) - 1` when the chain is longer than 1
and dispatches on `type(val) == Vec` (a `Single` selector with a `Vec`
value reads `._dim` off a number - a Python AttributeError); `Mat.update`
promotes by `len(idx) - 1` - one more axis than its depth 2 requires,
reproducing the source verbatim - pads a short chain by one `All`, and
dispatches on `isinstance(val, Mat)`; `Arr.update` promotes by
`len(idx) - self.dept`, pads with `All` up to its depth, and dispatches
on `isinstance(val, Arr)`.  Componentwise branches check the cardinality
(`ASGN_N_MISS`) and pair children with `val[i]`; distributive branches
broadcast `val`. -/
def Obj.updateF : Nat → Obj → List Sel → Obj → Except Errno Obj
  | 0, _, _, _ => .error .fuelOut
  | fuel + 1, o, idx, val =>
    match o with
    | .vec e d =>
      if idx.length > 1 then Obj.updateF fuel (o.promote (idx.length - 1)) idx val
      else
        match idx with
        | [] => .error .kernelErr
        | s :: _ =>
          if val.isVecT then
            match s with
            | .all =>
              if d.headD 0 != val.dim0 then .error (.asgnNMiss (d.headD 0) val.dim0)
              else .ok (mkVec val.elemL)
            | .list ids =>
              if ids.length != val.dim0 then .error (.asgnNMiss ids.length val.dim0)
              else do
                let cur ← (List.range ids.length).foldlM (fun cur i =>
                  let j := ids.getD i 0
                  if j < 0 || j ≥ (d.headD 0 : Int) then throw (Errno.idxBound j)
                  else do
                    let vi ← getEl val.elemL (i : Int)
                    setEl cur j vi) e
                .ok (mkVec cur)
            | .single _ => .error .kernelErr
          else
            match s with
            | .all => .ok (mkVec (List.replicate (d.headD 0) val))
            | .list ids => do
              let cur ← ids.foldlM (fun cur j =>
                if j < 0 || j ≥ (d.headD 0 : Int) then throw (Errno.idxBound j)
                else setEl cur j val) e
              .ok (mkVec cur)
            | .single i =>
              if i < 0 || i ≥ (d.headD 0 : Int) then .error (.idxBound i)
              else do
                let cur ← setEl e i val
                .ok (mkVec cur)
    | .mat e d =>
      if idx.length > 2 then Obj.updateF fuel (o.promote (idx.length - 1)) idx val
      else
        match (if idx.length < 2 then idx ++ [Sel.all] else idx) with
        | [] => .error .kernelErr
        | s :: rest =>
          if val.isMatInst then
            match s with
            | .all =>
              if d.headD 0 != val.dim0 then .error (.asgnNMiss (d.headD 0) val.dim0)
              else do
                let ch ← (List.range (d.headD 0)).mapM (fun (i : Nat) => do
                  let it ← getEl e (i : Int)
                  let vi ← getEl val.elemL (i : Int)
                  Obj.updateF fuel it rest vi)
                .ok (.mat ch d)
            | .list ids =>
              if ids.length != val.dim0 then .error (.asgnNMiss ids.length val.dim0)
              else do
                let cur ← (List.range ids.length).foldlM (fun cur i =>
                  let j := ids.getD i 0
                  if j < 0 || j ≥ (d.headD 0 : Int) then throw (Errno.idxBound j)
                  else do
                    let ej ← getEl cur j
                    let vi ← getEl val.elemL (i : Int)
                    let ej2 ← Obj.updateF fuel ej rest vi
                    setEl cur j ej2) e
                .ok (.mat cur d)
            | .single i =>
              if i < 0 || i ≥ (d.headD 0 : Int) then .error (.idxBound i)
              else do
                let ei ← getEl e i
                let ei2 ← Obj.updateF fuel ei rest val
                let cur ← setEl e i ei2
                .ok (.mat cur d)
          else
            match s with
            | .all => do
              let ch ← e.mapM (fun it => Obj.updateF fuel it rest val)
              .ok (.mat ch d)
            | .list ids => do
              let cur ← ids.foldlM (fun cur j =>
                if j < 0 || j ≥ (d.headD 0 : Int) then throw (Errno.idxBound j)
                else do
                  let ej ← getEl cur j
                  let ej2 ← Obj.updateF fuel ej rest val
                  setEl cur j ej2) e
              .ok (.mat cur d)
            | .single i =>
              if i < 0 || i ≥ (d.headD 0 : Int) then .error (.idxBound i)
              else do
                let ei ← getEl e i
                let ei2 ← Obj.updateF fuel ei rest val
                let cur ← setEl e i ei2
                .ok (.mat cur d)
    | .arr e d =>
      if idx.length > d.length then Obj.updateF fuel (o.promote (idx.length - d.length)) idx val
      else
        match idx ++ List.replicate (d.length - idx.length) Sel.all with
        | [] => .error .kernelErr
        | s :: rest =>
          if val.isArrInst then
            match s with
            | .all =>
              if d.headD 0 != val.dim0 then .error (.asgnNMiss (d.headD 0) val.dim0)
              else do
                let ch ← (List.range (d.headD 0)).mapM (fun (i : Nat) => do
                  let it ← getEl e (i : Int)
                  let vi ← getEl val.elemL (i : Int)
                  Obj.updateF fuel it rest vi)
                .ok (.arr ch d)
            | .list ids =>
              if ids.length != val.dim0 then .error (.asgnNMiss ids.length val.dim0)
              else do
                let cur ← (List.range ids.length).foldlM (fun cur i =>
                  let j := ids.getD i 0
                  if j < 0 || j ≥ (d.headD 0 : Int) then throw (Errno.idxBound j)
                  else do
                    let ej ← getEl cur j
                    let vi ← getEl val.elemL (i : Int)
                    let ej2 ← Obj.updateF fuel ej rest vi
                    setEl cur j ej2) e
                .ok (.arr cur d)
            | .single i =>
              if i < 0 || i ≥ (d.headD 0 : Int) then .error (.idxBound i)
              else do
                let ei ← getEl e i
                let ei2 ← Obj.updateF fuel ei rest val
                let cur ← setEl e i ei2
                .ok (.arr cur d)
          else
            match s with
            | .all => do
              let ch ← e.mapM (fun it => Obj.updateF fuel it rest val)
              .ok (.arr ch d)
            | .list ids => do
              let cur ← ids.foldlM (fun cur j =>
                if j < 0 || j ≥ (d.headD 0 : Int) then throw (Errno.idxBound j)
                else do
                  let ej ← getEl cur j
                  let ej2 ← Obj.updateF fuel ej rest val
                  setEl cur j ej2) e
              .ok (.arr cur d)
            | .single i =>
              if i < 0 || i ≥ (d.headD 0 : Int) then .error (.idxBound i)
              else do
                let ei ← getEl e i
                let ei2 ← Obj.updateF fuel ei rest val
                let cur ← setEl e i ei2
                .ok (.arr cur d)
    | _ => .error .kernelErr

/-- Claim C3: `Arr.update` and `Vec.update` promote by exactly
`len(chain) - depth` when the chain is longer than the value's depth,
but `Mat.update` (depth 2) promotes by `len(chain) - 1`.  For the 2-by-2
matrix `m` and the in-bounds chain `[Single 0, Single 1, Single 0]` the
spurious extra axis shifts the remaining indices onto size-1 wrapper
axes, and the update fails with `IDX_BOUND` on index 1; the promotion by
`len(chain) - depth = 1` that the claim (and `Arr.update`'s
documentation) prescribe would instead update the element at row 1,
column 0.  The last conjunct records that the chain exceeds the depth by
exactly 1. -/
theorem c3_mat_update_promotes_too_far : ∀ fuel : Nat,
    Obj.updateF (fuel + 3) (.mat [mkVec [.sc 1, .sc 2], mkVec [.sc 3, .sc 4]] [2, 2])
      [.single 0, .single 1, .single 0] (.sc 9) = .error (.idxBound 1) ∧
    Obj.updateF (fuel + 3)
      (Obj.promote (.mat [mkVec [.sc 1, .sc 2], mkVec [.sc 3, .sc 4]] [2, 2]) 1)
      [.single 0, .single 1, .single 0] (.sc 9) =
      .ok (.arr [.mat [mkVec [.sc 1, .sc 2], mkVec [.sc 9, .sc 4]] [2, 2]] [1, 2, 2]) ∧
    [Sel.single 0, .single 1, .single 0].length -
      (Obj.mat [mkVec [.sc 1, .sc 2], mkVec [.sc 3, .sc 4]] [2, 2]).dept = 1 := by
  intro fuel
  refine ⟨rfl, rfl, rfl⟩

/-- Componentwise binary-operator application with broadcasting: the
combined behaviour of Python's binary dispatch over `Arr.__apply`
(src/Class/Array.py, lines 474-515), `Mat.__apply` (930-958) and
`Vec.__apply` (1462-1488), for a scalar operation `f` (the reflected
`__rop__` paths flip the operator back, so the element-level result is
always `f lhs rhs`).  A scalar against an array distributes over the
array's elements; two arrays of different depth promote the shallower
one; two arrays of equal depth must agree on `dim[0]` (else
`DIM_MISMATCH`) and recurse pairwise, the result keeping the left
operand's class and dimensions. -/
def Obj.applyF (f : Int → Int → Int) : Nat → Obj → Obj → Except Errno Obj
  | 0, _, _ => .error .fuelOut
  | fuel + 1, a, b =>
    match a, b with
    | .sc x, .sc y => .ok (.sc (f x y))
    | .sc x, .vec be _ => do
      let res ← be.mapM (fun it => Obj.applyF f fuel (.sc x) it)
      .ok (mkVec res)
    | .sc x, .mat be bd => do
      let res ← be.mapM (fun it => Obj.applyF f fuel (.sc x) it)
      .ok (.mat res bd)
    | .sc x, .arr be bd => do
      let res ← be.mapM (fun it => Obj.applyF f fuel (.sc x) it)
      .ok (.arr res bd)
    | .vec ae _, .sc y => do
      let res ← ae.mapM (fun it => Obj.applyF f fuel it (.sc y))
      .ok (mkVec res)
    | .mat ae ad, .sc y => do
      let res ← ae.mapM (fun it => Obj.applyF f fuel it (.sc y))
      .ok (.mat res ad)
    | .arr ae ad, .sc y => do
      let res ← ae.mapM (fun it => Obj.applyF f fuel it (.sc y))
      .ok (.arr res ad)
    | a, b =>
      if a.isArrInst && b.isArrInst then
        if a.dim.length > b.dim.length then
          Obj.applyF f fuel a (b.promote (a.dim.length - b.dim.length))
        else if a.dim.length < b.dim.length then
          Obj.applyF f fuel (a.promote (b.dim.length - a.dim.length)) b
        else if a.dim0 != b.dim0 then .error .dimMismatch
        else do
          let res ← (List.range a.dim0).mapM (fun (i : Nat) => do
            let x ← getEl a.elemL (i : Int)
            let y ← getEl b.elemL (i : Int)
            Obj.applyF f fuel x y)
          match a with
          | .vec _ _ => .ok (mkVec res)
          | .mat _ d => .ok (.mat res d)
          | .arr _ d => .ok (.arr res d)
          | _ => .error .kernelErr
      else .error .kernelErr

/-- Well-formed array values with their dimension vector: a `Vec` of
scalars whose stored dimension is its length; a `Mat` of `r` rows, each
a well-formed vector of the common length `c`; an `Arr` of depth at
least 3 whose children share the remaining shape.  This is the data
model's invariant: `dim[0]` counts the direct children, `len(dim)` is
the nesting depth, and siblings share one shape. -/
inductive WfA : Obj → List Nat → Prop where
  | vec (es : List Obj) (n : Nat) (hlen : es.length = n)
      (hsc : ∀ e ∈ es, ∃ x : Int, e = .sc x) :
      WfA (.vec es [n]) [n]
  | mat (es : List Obj) (r c : Nat) (hlen : es.length = r)
      (hch : ∀ e ∈ es, WfA e [c]) :
      WfA (.mat es [r, c]) [r, c]
  | arr (es : List Obj) (n : Nat) (ds : List Nat) (hds : 2 ≤ ds.length)
      (hlen : es.length = n) (hch : ∀ e ∈ es, WfA e ds) :
      WfA (.arr es (n :: ds)) (n :: ds)

/-- A well-formed value's stored dimension list is its shape. -/
theorem WfA.dim_eq {v : Obj} {d : List Nat} (h : WfA v d) : v.dim = d := by
  cases h <;> rfl

/-- A well-formed value's element count is the leading dimension. -/
theorem WfA.len_eq {v : Obj} {d : List Nat} (h : WfA v d) :
    v.elemL.length = d.headD 0 := by
  cases h <;> simp [Obj.elemL] <;> assumption

/-- Shape of depth 1 forces the `Vec` tag. -/
theorem WfA.vecT {v : Obj} {c : Nat} (h : WfA v [c]) : v.isVecT = true := by
  cases h <;> simp_all [Obj.isVecT]

/-- Shape of depth 2 forces the `Mat` tag. -/
theorem WfA.matT {v : Obj} {r c : Nat} (h : WfA v [r, c]) : v.isMatT = true := by
  cases h <;> simp_all [Obj.isMatT]

/-- Shape of depth 3 or more forces the `Arr` tag. -/
theorem WfA.arrT {v : Obj} {d : List Nat} (h : WfA v d) (hd : 3 ≤ d.length) :
    v.isArrT = true := by
  cases h <;> simp_all [Obj.isArrT]

/-- A monadic map by a function that returns each element unchanged
returns the list unchanged. -/
theorem mapM_ok_id {l : List Obj} {g : Obj → Except Errno Obj}
    (h : ∀ x ∈ l, g x = .ok x) : l.mapM g = .ok l := by
  induction l with
  | nil => rfl
  | cons x rest ih =>
    rw [List.mapM_cons, h x (by simp), ih (fun y hy => h y (by simp [hy]))]
    rfl

/-- A well-formed value of depth at least 2 is not a `Vec`. -/
theorem WfA.not_vecT {v : Obj} {d : List Nat} (h : WfA v d) (hd : 2 ≤ d.length) :
    v.isVecT = false := by
  cases h <;> simp_all [Obj.isVecT]

/-- A well-formed value of depth at least 2 is a `Mat` or an `Arr`. -/
theorem WfA.matT_or_arrT {v : Obj} {d : List Nat} (h : WfA v d) (hd : 2 ≤ d.length) :
    (v.isMatT || v.isArrT) = true := by
  cases h <;> simp_all [Obj.isMatT, Obj.isArrT]

/-- Claim C6, counterexample: for the well-formed but childless matrix
`Mat([], [0, 1])` (zero rows of one column), `get` with an all-`All`
chain crashes - `Arr.get` evaluates `type(res[0])` on the empty result
list, an IndexError - instead of returning the value; the final two
conjuncts record that the value is well-formed and that the crash is not
the claimed identity. -/
theorem c6_get_identity_counterexample :
    (∀ fuel : Nat, Obj.getF (fuel + 1) (.mat [] [0, 1]) [.all, .all] =
      .error .kernelErr) ∧
    WfA (.mat [] [0, 1]) [0, 1] ∧
    (Except.error Errno.kernelErr ≠
      (Except.ok (Obj.mat [] [0, 1]) : Except Errno Obj)) := by
  refine ⟨fun fuel => rfl, ?_, by simp⟩
  exact WfA.mat [] 0 1 rfl (by simp)

/-- Monadic bind of an `ok` value, as a rewrite rule. -/
theorem ok_bind {ε α β : Type} (a : α) (k : α → Except ε β) :
    ((Except.ok a : Except ε α) >>= k) = k a := rfl

/-- The accumulator loop of `List.mapM`, when the body returns every
element unchanged, returns the accumulated prefix and the remaining
elements. -/
theorem mapM_loop_ok_id {g : Obj → Except Errno Obj} :
    ∀ (l acc : List Obj), (∀ x ∈ l, g x = .ok x) →
    List.mapM.loop g l acc = .ok (acc.reverse ++ l) := by
  intro l
  induction l with
  | nil =>
    intro acc h
    simp [List.mapM.loop]
    rfl
  | cons x rest ih =>
    intro acc h
    rw [List.mapM.loop, h x (by simp)]
    show List.mapM.loop g rest (x :: acc) = _
    rw [ih (x :: acc) (fun y hy => h y (by simp [hy]))]
    simp

/-- Claim C6, amended: for every well-formed array value all of whose
non-terminal dimensions are positive (only the innermost dimension may
be 0), indexing with `depth(v)` `All` selectors returns the value
itself.  The fuel only needs to exceed the depth. -/
theorem c6_get_all_identity {v : Obj} {d : List Nat} (h : WfA v d) :
    (∀ n ∈ d.dropLast, 0 < n) → ∀ fuel, d.length < fuel →
    Obj.getF fuel v (List.replicate d.length Sel.all) = .ok v := by
  induction h with
  | vec es n hlen hsc =>
    intro _ fuel hf
    obtain ⟨f, rfl⟩ : ∃ f, fuel = f + 1 := ⟨fuel - 1, by omega⟩
    simp [Obj.getF, mkVec, hlen]
  | mat es r c hlen hch ih =>
    intro hpos fuel hf
    obtain ⟨f, rfl⟩ : ∃ f, fuel = f + 1 := ⟨fuel - 1, by omega⟩
    have hf1 : 1 < f := by simp at hf; omega
    have hr : 0 < r := hpos r (by simp)
    cases es with
    | nil => simp at hlen; omega
    | cons e0 tl =>
      have h0 := hch e0 (by simp)
      have hv := WfA.vecT h0
      have hd0 := WfA.dim_eq h0
      have hid : ∀ e ∈ e0 :: tl, Obj.getF f e [Sel.all] = .ok e := fun e he => by
        have := ih e he (by simp) f hf1
        simpa using this
      have hloop : List.mapM.loop (fun it => Obj.getF f it [Sel.all]) (e0 :: tl) [] =
          .ok (e0 :: tl) := by
        rw [mapM_loop_ok_id _ _ hid]
        simp
      simp [Obj.getF, wrapRes, List.mapM, List.replicate, hloop, ok_bind, hv, hd0, hlen]
  | arr es n ds hds hlen hch ih =>
    intro hpos fuel hf
    rcases ds with _ | ⟨d1, _ | ⟨d2, ds2⟩⟩
    · simp at hds
    · simp at hds
    · obtain ⟨f, rfl⟩ : ∃ f, fuel = f + 1 := ⟨fuel - 1, by omega⟩
      have hfds : (d1 :: d2 :: ds2).length < f := by simp at hf ⊢; omega
      have hn : 0 < n := hpos n (by simp [List.dropLast])
      have hposch : ∀ m ∈ (d1 :: d2 :: ds2).dropLast, 0 < m := by
        intro m hm
        exact hpos m (by simp [List.dropLast] at hm ⊢; tauto)
      have hchain : List.replicate (d1 :: d2 :: ds2).length Sel.all =
          Sel.all :: Sel.all :: List.replicate ds2.length Sel.all := by
        simp [List.replicate]
      cases es with
      | nil => simp at hlen; omega
      | cons e0 tl =>
        have h0 := hch e0 (by simp)
        have hv := WfA.not_vecT h0 hds
        have hma := WfA.matT_or_arrT h0 hds
        have hd0 := WfA.dim_eq h0
        have hid : ∀ e ∈ e0 :: tl,
            Obj.getF f e (Sel.all :: Sel.all :: List.replicate ds2.length Sel.all) =
              .ok e := fun e he => by
          have := ih e he hposch f hfds
          rwa [hchain] at this
        have hloop : List.mapM.loop
            (fun it => Obj.getF f it (Sel.all :: Sel.all :: List.replicate ds2.length Sel.all))
            (e0 :: tl) [] = .ok (e0 :: tl) := by
          rw [mapM_loop_ok_id _ _ hid]
          simp
        have hma2 : e0.isMatT = true ∨ e0.isArrT = true := by
          rcases Bool.or_eq_true_iff.mp hma with h | h
          · exact Or.inl h
          · exact Or.inr h
        simp [Obj.getF, wrapRes, List.mapM, List.replicate, hloop, ok_bind, hv, hma2,
          hd0, hlen]

/-- Witness for (amended) claim C6 at the concrete 1-by-2 matrix. -/
theorem c6_witness :
    Obj.getF 4 (.mat [mkVec [.sc 1, .sc 2]] [1, 2]) (List.replicate 2 Sel.all) =
      .ok (.mat [mkVec [.sc 1, .sc 2]] [1, 2]) :=
  c6_get_all_identity
    (WfA.mat [mkVec [.sc 1, .sc 2]] 1 2 rfl (by
      intro e he
      simp at he
      subst he
      exact WfA.vec [.sc 1, .sc 2] 2 rfl (by
        intro x hx
        simp at hx
        rcases hx with h | h <;> exact ⟨_, h⟩)))
    (by simp) 4 (by simp)

/-- Promotion turns a well-formed value of shape `d` into a well-formed
value of shape `1, ..., 1, d`. -/
theorem promote_wf {v : Obj} {d : List Nat} (h : WfA v d) :
    ∀ n : Nat, WfA (v.promote n) (List.replicate n 1 ++ d) := by
  intro n
  induction n generalizing v d with
  | zero =>
    cases h <;> simpa [Obj.promote] using by constructor <;> assumption
  | succ m ih =>
    have hshift : ∀ (d0 : List Nat),
        List.replicate m 1 ++ (1 :: d0) = List.replicate (m + 1) 1 ++ d0 := by
      intro d0
      rw [List.replicate_succ']
      simp
    cases h with
    | vec es nn hlen hsc =>
      have hwrap : WfA (.mat [.vec es [nn]] [1, nn]) [1, nn] := by
        refine WfA.mat _ 1 nn rfl ?_
        intro e he
        simp at he
        subst he
        exact WfA.vec es nn hlen hsc
      have := ih hwrap
      rw [hshift [nn]] at this
      simpa [Obj.promote] using this
    | mat es r c hlen hch =>
      have hwrap : WfA (.arr [.mat es [r, c]] [1, r, c]) [1, r, c] := by
        refine WfA.arr _ 1 [r, c] (by simp) rfl ?_
        intro e he
        simp at he
        subst he
        exact WfA.mat es r c hlen hch
      have := ih hwrap
      rw [hshift [r, c]] at this
      simpa [Obj.promote] using this
    | arr es nn ds hds hlen hch =>
      have hwrap : WfA (.arr [.arr es (nn :: ds)] (1 :: nn :: ds)) (1 :: nn :: ds) := by
        refine WfA.arr _ 1 (nn :: ds) (by simp; omega) rfl ?_
        intro e he
        simp at he
        subst he
        exact WfA.arr es nn ds hds hlen hch
      have := ih hwrap
      rw [hshift (nn :: ds)] at this
      simpa [Obj.promote] using this

/-- One level of result-shape bookkeeping: an `All` selector keeps the
dimension, a `List` selector replaces it by the index count, a `Single`
selector drops it. -/
def shapeStep (d0 : Nat) (s : Sel) (sh : Option (List Nat)) : Option (List Nat) :=
  match s, sh with
  | Sel.all, some ds2 => some (d0 :: ds2)
  | Sel.all, none => some [d0]
  | Sel.list ids, some ds2 => some (ids.length :: ds2)
  | Sel.list ids, none => some [ids.length]
  | Sel.single _, sh => sh

/-- The shape of an indexing result: `none` stands for a scalar
(dimension-dropped to nothing), `some ds` for an array of shape `ds`.
Defined on a dimension list and a selector chain of the same length. -/
def getShapeGo : List Nat → List Sel → Option (List Nat)
  | [n], [Sel.all] => some [n]
  | [_], [Sel.list ids] => some [ids.length]
  | [_], [Sel.single _] => none
  | d0 :: d1 :: ds, s :: rest => shapeStep d0 s (getShapeGo (d1 :: ds) rest)
  | _, _ => none

/-- Result-shape predicate: a scalar for `none`, a well-formed value of
the given shape otherwise. -/
def ShapeRes (w : Obj) : Option (List Nat) → Prop
  | none => ∃ x : Int, w = .sc x
  | some ds => WfA w ds

/-- The re-wrapping of uniform indexing results produces a well-formed
value: scalars wrap into a vector, vectors into a matrix, deeper values
into an array. -/
theorem wrapRes_wf {res : List Obj} {sh : Option (List Nat)} {w : Obj}
    (hall : ∀ x ∈ res, ShapeRes x sh) (hw : wrapRes res = .ok w) :
    ShapeRes w (some (match sh with
      | none => [res.length]
      | some ds => res.length :: ds)) := by
  cases res with
  | nil => simp [wrapRes] at hw
  | cons r0 tl =>
    have h0 := hall r0 (by simp)
    cases sh with
    | none =>
      obtain ⟨x, rfl⟩ := h0
      simp [wrapRes, Obj.isVecT, Obj.isMatT, Obj.isArrT, mkVec] at hw
      subst hw
      exact WfA.vec _ _ rfl (fun e he => by
        obtain ⟨y, hy⟩ := hall e he
        exact ⟨y, hy⟩)
    | some ds =>
      rcases ds with _ | ⟨c, _ | ⟨c2, ds2⟩⟩
      · cases h0
      · have hv := WfA.vecT h0
        have hd0 := WfA.dim_eq h0
        simp [wrapRes, hv, hd0] at hw
        subst hw
        exact WfA.mat _ _ _ rfl (fun e he => hall e he)
      · have hv := WfA.not_vecT h0 (by simp)
        have hma := WfA.matT_or_arrT h0 (by simp)
        have hd0 := WfA.dim_eq h0
        have hma2 : r0.isMatT = true ∨ r0.isArrT = true := by
          rcases Bool.or_eq_true_iff.mp hma with h | h
          · exact Or.inl h
          · exact Or.inr h
        simp [wrapRes, hv, hma2, hd0] at hw
        subst hw
        exact WfA.arr _ _ _ (by simp) rfl (fun e he => hall e he)

/-- Success of the `mapM.loop` accumulator: the result extends the
accumulator by one successful image per input element. -/
theorem mapM_loop_ok_mem {ε α β : Type} {g : α → Except ε β} :
    ∀ (l : List α) (acc res : List β), List.mapM.loop g l acc = .ok res →
    res.length = acc.length + l.length ∧
      ∀ r ∈ res, r ∈ acc ∨ ∃ x ∈ l, g x = .ok r := by
  intro l
  induction l with
  | nil =>
    intro acc res h
    rw [List.mapM.loop] at h
    cases h
    constructor
    · simp
    · intro r hr
      exact Or.inl (by simpa using hr)
  | cons x rest ih =>
    intro acc res h
    rw [List.mapM.loop] at h
    cases hx : g x with
    | error e => rw [hx] at h; cases h
    | ok b =>
      rw [hx] at h
      have h' : List.mapM.loop g rest (b :: acc) = .ok res := h
      obtain ⟨hlen, hmem⟩ := ih (b :: acc) res h'
      constructor
      · simp at hlen
        simp
        omega
      · intro r hr
        rcases hmem r hr with hacc | ⟨y, hy, hgy⟩
        · rcases List.mem_cons.mp hacc with rfl | hacc2
          · exact Or.inr ⟨x, by simp, hx⟩
          · exact Or.inl hacc2
        · exact Or.inr ⟨y, by simp [hy], hgy⟩

/-- Success of `List.mapM` (the form the compiled definitions use). -/
theorem mapM_ok_mem {ε α β : Type} {g : α → Except ε β} {l : List α} {res : List β}
    (h : List.mapM.loop g l [] = .ok res) :
    res.length = l.length ∧ ∀ r ∈ res, ∃ x ∈ l, g x = .ok r := by
  obtain ⟨hlen, hmem⟩ := mapM_loop_ok_mem l [] res h
  refine ⟨by simpa using hlen, fun r hr => ?_⟩
  rcases hmem r hr with hacc | hex
  · cases hacc
  · exact hex

/-- Monadic bind of an `error` value, as a rewrite rule. -/
theorem err_bind {ε α β : Type} (e : ε) (k : α → Except ε β) :
    ((Except.error e : Except ε α) >>= k) = .error e := rfl

/-- Monadic bind of a thrown error, as a rewrite rule. -/
theorem throw_bind {ε α β : Type} (e : ε) (k : α → Except ε β) :
    ((throw e : Except ε α) >>= k) = .error e := rfl

/-- A successful bind splits into a successful first stage and a
successful continuation. -/
theorem bind_ok {ε α β : Type} {m : Except ε α} {k : α → Except ε β} {b : β}
    (h : (m >>= k) = .ok b) : ∃ a, m = .ok a ∧ k a = .ok b := by
  cases m with
  | error e => rw [err_bind] at h; exact Except.noConfusion h
  | ok a => rw [ok_bind] at h; exact ⟨a, rfl, h⟩

/-- A successful list subscription returns a member of the list. -/
theorem getEl_mem {l : List Obj} {i : Int} {x : Obj} (h : getEl l i = .ok x) :
    x ∈ l := by
  unfold getEl at h
  cases hg : l.get? i.toNat with
  | none => rw [hg] at h; exact Except.noConfusion h
  | some y =>
    rw [hg] at h
    cases h
    exact List.get?_mem hg

/-- Success of the index-gathering fold of `Vec.get`: the result extends
the accumulator by one member of the element list per index. -/
theorem vec_gather_ok {e : List Obj} {m : Nat} :
    ∀ (ids : List Int) (acc res : List Obj),
    (ids.foldlM (fun acc i =>
      if i < 0 || i ≥ (m : Int) then throw (Errno.idxBound i)
      else do
        let x ← getEl e i
        pure (acc ++ [x])) acc) = .ok res →
    res.length = acc.length + ids.length ∧ ∀ x ∈ res, x ∈ acc ∨ x ∈ e := by
  intro ids
  induction ids with
  | nil =>
    intro acc res h
    simp only [List.foldlM_nil] at h
    cases h
    exact ⟨rfl, fun x hx => Or.inl hx⟩
  | cons i rest ih =>
    intro acc res h
    rw [List.foldlM_cons] at h
    split at h
    · rw [throw_bind] at h
      exact Except.noConfusion h
    · rw [bind_assoc] at h
      cases hx : getEl e i with
      | error er => rw [hx, err_bind] at h; exact Except.noConfusion h
      | ok x =>
        rw [hx, ok_bind, pure_bind] at h
        obtain ⟨hl, hm⟩ := ih (acc ++ [x]) res h
        refine ⟨by simp at hl ⊢; omega, fun y hy => ?_⟩
        rcases hm y hy with hy2 | hy2
        · rcases List.mem_append.mp hy2 with h3 | h3
          · exact Or.inl h3
          · simp at h3
            subst h3
            exact Or.inr (getEl_mem hx)
        · exact Or.inr hy2

/-- Success of the recursive index-gathering fold of `Arr.get`: every
gathered result is a successful image of a member of the element list,
and there is one per index. -/
theorem arr_gather_ok {e : List Obj} {m : Nat} {g : Obj → Except Errno Obj}
    {P : Obj → Prop} (hg : ∀ x ∈ e, ∀ r, g x = .ok r → P r) :
    ∀ (ids : List Int) (acc res : List Obj), (∀ x ∈ acc, P x) →
    (ids.foldlM (fun acc i =>
      if i < 0 || i ≥ (m : Int) then throw (Errno.idxBound i)
      else do
        let it ← getEl e i
        let r ← g it
        pure (acc ++ [r])) acc) = .ok res →
    res.length = acc.length + ids.length ∧ ∀ x ∈ res, P x := by
  intro ids
  induction ids with
  | nil =>
    intro acc res hacc h
    simp only [List.foldlM_nil] at h
    cases h
    exact ⟨rfl, hacc⟩
  | cons i rest ih =>
    intro acc res hacc h
    rw [List.foldlM_cons] at h
    split at h
    · rw [throw_bind] at h
      exact Except.noConfusion h
    · rw [bind_assoc] at h
      cases hx : getEl e i with
      | error er => rw [hx, err_bind] at h; exact Except.noConfusion h
      | ok x =>
        rw [hx, ok_bind, bind_assoc] at h
        cases hr2 : g x with
        | error er => rw [hr2, err_bind] at h; exact Except.noConfusion h
        | ok r =>
          rw [hr2, ok_bind, pure_bind] at h
          have haccr : ∀ y ∈ acc ++ [r], P y := by
            intro y hy
            rcases List.mem_append.mp hy with h3 | h3
            · exact hacc y h3
            · simp at h3
              subst h3
              exact hg x (getEl_mem hx) y hr2
          obtain ⟨hl, hm⟩ := ih (acc ++ [r]) res haccr h
          exact ⟨by simp at hl ⊢; omega, hm⟩

/-- Success of `List.mapM` itself (wrapper over the loop form). -/
theorem mapM_ok_mem2 {ε α β : Type} {g : α → Except ε β} {l : List α} {res : List β}
    (h : l.mapM g = .ok res) :
    res.length = l.length ∧ ∀ r ∈ res, ∃ x ∈ l, g x = .ok r := by
  rw [List.mapM] at h
  exact mapM_ok_mem h

/-- The `then`-branch of a successful conditional whose condition holds. -/
theorem ite_ok_elim_pos {ε β : Type} {c : Prop} [Decidable c] {x y : Except ε β}
    {w : β} (h : (if c then x else y) = .ok w) (hc : c) : x = .ok w := by
  rwa [if_pos hc] at h

/-- The `else`-branch of a successful conditional whose condition fails. -/
theorem ite_ok_elim {ε β : Type} {c : Prop} [Decidable c] {x y : Except ε β}
    {w : β} (h : (if c then x else y) = .ok w) (hnc : ¬c) : y = .ok w := by
  rwa [if_neg hnc] at h

/-- A successful conditional whose `then`-branch is an error took the
`else`-branch. -/
theorem ite_err_ok {ε β : Type} {c : Prop} [Decidable c] {e : ε}
    {y : Except ε β} {w : β}
    (h : (if c then Except.error e else y) = .ok w) : ¬c ∧ y = .ok w := by
  by_cases hc : c
  · rw [if_pos hc] at h
    exact absurd h (by simp)
  · rw [if_neg hc] at h
    exact ⟨hc, h⟩

/-- Introduction for the array side of `ShapeRes`. -/
theorem shapeRes_some {w : Obj} {ds : List Nat} (h : WfA w ds) :
    ShapeRes w (some ds) := h

/-- Introduction for the scalar side of `ShapeRes`. -/
theorem shapeRes_none {w : Obj} (x : Int) (h : w = .sc x) : ShapeRes w none :=
  ⟨x, h⟩

/-- Elimination of `ShapeRes` into the two result forms. -/
theorem shapeRes_cases {w : Obj} {sh : Option (List Nat)} (h : ShapeRes w sh) :
    (∃ x : Int, w = .sc x) ∨ ∃ ds, WfA w ds := by
  cases sh with
  | none => exact Or.inl h
  | some ds => exact Or.inr ⟨ds, h⟩

/-- Shape preservation of `get`, by fuel induction: a successful `get`
on a well-formed value, with a chain no longer than the depth, returns
the scalar or well-formed value of the shape `getShapeGo` computes on
the `All`-padded chain. -/
theorem getF_shape : ∀ (fuel : Nat) {v : Obj} {d : List Nat} {idx : List Sel}
    {w : Obj}, WfA v d → idx.length ≤ d.length → Obj.getF fuel v idx = .ok w →
    ShapeRes w (getShapeGo d (idx ++ List.replicate (d.length - idx.length) Sel.all)) := by
  intro fuel
  induction fuel with
  | zero =>
    intro v d idx w _ _ hr
    exact Except.noConfusion hr
  | succ fuel ih =>
    intro v d idx w h hlen hr
    cases h with
    | vec es n hlenv hsc =>
      rcases idx with _ | ⟨s, _ | ⟨s2, t⟩⟩
      · exact Except.noConfusion hr
      · cases s with
        | all =>
          have hw := Except.ok.inj hr
          subst hw
          refine shapeRes_some ?_
          simp only [mkVec, hlenv]
          exact WfA.vec es n hlenv hsc
        | list ids =>
          obtain ⟨hne, hr2⟩ := ite_err_ok hr
          obtain ⟨res, hfold, hwr⟩ := bind_ok hr2
          have hw := Except.ok.inj hwr
          subst hw
          obtain ⟨hrl, hrm⟩ := vec_gather_ok ids [] res hfold
          have hrn : res.length = ids.length := by simpa using hrl
          have hsc2 : ∀ x ∈ res, ∃ ix : Int, x = .sc ix := by
            intro x hx
            rcases hrm x hx with h3 | h3
            · simp at h3
            · exact hsc x h3
          refine shapeRes_some ?_
          simp only [mkVec, hrn]
          exact WfA.vec res ids.length hrn hsc2
        | single i =>
          obtain ⟨hbnd, hr2⟩ := ite_err_ok hr
          obtain ⟨ix, hix⟩ := hsc w (getEl_mem hr2)
          exact shapeRes_none ix hix
      · simp at hlen
    | mat es r c hlenm hch =>
      have hlen2 : idx.length ≤ 2 := by simpa using hlen
      have hr2 := ite_ok_elim hr (show ¬(idx.length > 2) by omega)
      obtain ⟨s, rest0, hpe⟩ : ∃ s rest0,
          idx ++ List.replicate (List.length [r, c] - idx.length) Sel.all =
            s :: rest0 := by
        cases hq : idx ++ List.replicate (List.length [r, c] - idx.length) Sel.all with
        | nil =>
          have hlq := congrArg List.length hq
          simp at hlq
          obtain ⟨h1, h2⟩ := hlq
          subst h1
          simp at h2
        | cons a b => exact ⟨a, b, rfl⟩
      have hlpe := congrArg List.length hpe
      simp at hlpe
      have hrest : rest0.length = 1 := by omega
      rw [hpe] at hr2
      rw [hpe]
      have hchild : ∀ x ∈ es, ∀ rr : Obj, Obj.getF fuel x rest0 = .ok rr →
          ShapeRes rr (getShapeGo [c] rest0) := by
        intro x hx rr hrr
        have h2 := ih (hch x hx) (by simp [hrest]) hrr
        simpa [hrest] using h2
      cases s with
      | all =>
        obtain ⟨res, hmap, hwr⟩ := bind_ok hr2
        obtain ⟨hrl, hrm⟩ := mapM_ok_mem2 hmap
        have hrn : res.length = r := by rw [hrl]; exact hlenm
        cases hsh : getShapeGo [c] rest0 with
        | none =>
          have hall : ∀ x ∈ res, ShapeRes x none := by
            intro x hx
            obtain ⟨y, hy, hgy⟩ := hrm x hx
            have h2 := hchild y hy x hgy
            rwa [hsh] at h2
          have hwf := wrapRes_wf hall hwr
          rw [hrn] at hwf
          simp only [getShapeGo]
          rw [hsh]
          exact hwf
        | some ds3 =>
          have hall : ∀ x ∈ res, ShapeRes x (some ds3) := by
            intro x hx
            obtain ⟨y, hy, hgy⟩ := hrm x hx
            have h2 := hchild y hy x hgy
            rwa [hsh] at h2
          have hwf := wrapRes_wf hall hwr
          rw [hrn] at hwf
          simp only [getShapeGo]
          rw [hsh]
          exact hwf
      | list ids =>
        obtain ⟨hne, hr3⟩ := ite_err_ok hr2
        obtain ⟨res, hfold, hwr⟩ := bind_ok hr3
        obtain ⟨hrl, hrm⟩ := arr_gather_ok hchild ids [] res (by simp) hfold
        have hrn : res.length = ids.length := by simpa using hrl
        cases hsh : getShapeGo [c] rest0 with
        | none =>
          have hall : ∀ x ∈ res, ShapeRes x none := by
            intro x hx
            have h2 := hrm x hx
            rwa [hsh] at h2
          have hwf := wrapRes_wf hall hwr
          rw [hrn] at hwf
          simp only [getShapeGo]
          rw [hsh]
          exact hwf
        | some ds3 =>
          have hall : ∀ x ∈ res, ShapeRes x (some ds3) := by
            intro x hx
            have h2 := hrm x hx
            rwa [hsh] at h2
          have hwf := wrapRes_wf hall hwr
          rw [hrn] at hwf
          simp only [getShapeGo]
          rw [hsh]
          exact hwf
      | single i =>
        obtain ⟨hbnd, hr3⟩ := ite_err_ok hr2
        obtain ⟨it, hit, hgf⟩ := bind_ok hr3
        have h2 := hchild it (getEl_mem hit) w hgf
        cases hsh : getShapeGo [c] rest0 with
        | none =>
          rw [hsh] at h2
          simp only [getShapeGo]
          rw [hsh]
          exact h2
        | some ds3 =>
          rw [hsh] at h2
          simp only [getShapeGo]
          rw [hsh]
          exact h2
    | arr es nn ds hds hlenA hch =>
      rcases ds with _ | ⟨d1, ds2⟩
      · simp at hds
      have hlen2 : idx.length ≤ ds2.length + 2 := by simpa using hlen
      have hr2 := ite_ok_elim hr (show ¬(idx.length > ds2.length + 2) by omega)
      obtain ⟨s, rest0, hpe⟩ : ∃ s rest0,
          idx ++ List.replicate (List.length (nn :: d1 :: ds2) - idx.length) Sel.all =
            s :: rest0 := by
        cases hq : idx ++ List.replicate (List.length (nn :: d1 :: ds2) - idx.length) Sel.all with
        | nil =>
          have hlq := congrArg List.length hq
          simp at hlq
          obtain ⟨h1, h2⟩ := hlq
          subst h1
          simp at h2
        | cons a b => exact ⟨a, b, rfl⟩
      have hlpe := congrArg List.length hpe
      simp at hlpe
      have hrest : rest0.length = ds2.length + 1 := by omega
      rw [hpe] at hr2
      rw [hpe]
      have hchild : ∀ x ∈ es, ∀ rr : Obj, Obj.getF fuel x rest0 = .ok rr →
          ShapeRes rr (getShapeGo (d1 :: ds2) rest0) := by
        intro x hx rr hrr
        have h2 := ih (hch x hx) (by simp [hrest]) hrr
        simpa [hrest] using h2
      cases s with
      | all =>
        obtain ⟨res, hmap, hwr⟩ := bind_ok hr2
        obtain ⟨hrl, hrm⟩ := mapM_ok_mem2 hmap
        have hrn : res.length = nn := by rw [hrl]; exact hlenA
        cases hsh : getShapeGo (d1 :: ds2) rest0 with
        | none =>
          have hall : ∀ x ∈ res, ShapeRes x none := by
            intro x hx
            obtain ⟨y, hy, hgy⟩ := hrm x hx
            have h2 := hchild y hy x hgy
            rwa [hsh] at h2
          have hwf := wrapRes_wf hall hwr
          rw [hrn] at hwf
          simp only [getShapeGo]
          rw [hsh]
          exact hwf
        | some ds3 =>
          have hall : ∀ x ∈ res, ShapeRes x (some ds3) := by
            intro x hx
            obtain ⟨y, hy, hgy⟩ := hrm x hx
            have h2 := hchild y hy x hgy
            rwa [hsh] at h2
          have hwf := wrapRes_wf hall hwr
          rw [hrn] at hwf
          simp only [getShapeGo]
          rw [hsh]
          exact hwf
      | list ids =>
        obtain ⟨hne, hr3⟩ := ite_err_ok hr2
        obtain ⟨res, hfold, hwr⟩ := bind_ok hr3
        obtain ⟨hrl, hrm⟩ := arr_gather_ok hchild ids [] res (by simp) hfold
        have hrn : res.length = ids.length := by simpa using hrl
        cases hsh : getShapeGo (d1 :: ds2) rest0 with
        | none =>
          have hall : ∀ x ∈ res, ShapeRes x none := by
            intro x hx
            have h2 := hrm x hx
            rwa [hsh] at h2
          have hwf := wrapRes_wf hall hwr
          rw [hrn] at hwf
          simp only [getShapeGo]
          rw [hsh]
          exact hwf
        | some ds3 =>
          have hall : ∀ x ∈ res, ShapeRes x (some ds3) := by
            intro x hx
            have h2 := hrm x hx
            rwa [hsh] at h2
          have hwf := wrapRes_wf hall hwr
          rw [hrn] at hwf
          simp only [getShapeGo]
          rw [hsh]
          exact hwf
      | single i =>
        obtain ⟨hbnd, hr3⟩ := ite_err_ok hr2
        obtain ⟨it, hit, hgf⟩ := bind_ok hr3
        have h2 := hchild it (getEl_mem hit) w hgf
        cases hsh : getShapeGo (d1 :: ds2) rest0 with
        | none =>
          rw [hsh] at h2
          simp only [getShapeGo]
          rw [hsh]
          exact h2
        | some ds3 =>
          rw [hsh] at h2
          simp only [getShapeGo]
          rw [hsh]
          exact h2

/-- Well-formedness preservation of `get`, chains of any length: a
successful `get` on a well-formed value returns a scalar or a
well-formed value (the long-chain case promotes first, by the exact
depth difference, and the promoted value is well-formed). -/
theorem getF_wf {fuel : Nat} {v : Obj} {d : List Nat} {idx : List Sel} {w : Obj}
    (h : WfA v d) (hr : Obj.getF fuel v idx = .ok w) :
    (∃ x : Int, w = .sc x) ∨ ∃ ds, WfA w ds := by
  by_cases hlen : idx.length ≤ d.length
  · exact shapeRes_cases (getF_shape fuel h hlen hr)
  · push_neg at hlen
    cases fuel with
    | zero => exact Except.noConfusion hr
    | succ fuel =>
      cases h with
      | vec es n hlenv hsc =>
        have hlen1 : idx.length > 1 := by simpa using hlen
        have hr2 := ite_ok_elim_pos hr hlen1
        refine shapeRes_cases (getF_shape fuel
          (promote_wf (WfA.vec es n hlenv hsc) (idx.length - 1)) ?_ hr2)
        simp
        omega
      | mat es r c hlenm hch =>
        have hlen1 : 2 < idx.length := by simpa using hlen
        have hr2 := ite_ok_elim_pos hr (show idx.length > 2 from hlen1)
        refine shapeRes_cases (getF_shape fuel
          (promote_wf (WfA.mat es r c hlenm hch) (idx.length - 2)) ?_ hr2)
        simp
        omega
      | arr es nn ds hds hlenA hch =>
        have hlen1 : ds.length + 1 < idx.length := by simpa using hlen
        have hr2 := ite_ok_elim_pos hr (show idx.length > ds.length + 1 from hlen1)
        refine shapeRes_cases (getF_shape fuel
          (promote_wf (WfA.arr es nn ds hds hlenA hch) (idx.length - (ds.length + 1))) ?_ hr2)
        simp
        omega

/-- A legitimate assigned value of a given depth: a scalar (depth 0) or
a well-formed array of that depth. -/
def ValOk (val : Obj) (dv : Nat) : Prop :=
  (dv = 0 ∧ ∃ x : Int, val = .sc x) ∨
    ∃ dvs : List Nat, dvs.length = dv ∧ WfA val dvs

/-- The children of a legitimate value of positive depth are legitimate
values one level shallower. -/
theorem ValOk_child {val : Obj} {dv : Nat} (h : ValOk val dv) :
    ∀ x ∈ val.elemL, ValOk x (dv - 1) := by
  rcases h with ⟨h0, x, rfl⟩ | ⟨dvs, hl, hw⟩
  · intro y hy
    simp [Obj.elemL] at hy
  · intro y hy
    cases hw with
    | vec es n hlen hsc =>
      obtain ⟨ix, hix⟩ := hsc y hy
      exact Or.inl ⟨by simp at hl; omega, ix, hix⟩
    | mat es r c hlen hch =>
      exact Or.inr ⟨[c], by simp at hl ⊢; omega, hch y hy⟩
    | arr es n ds hds hlen hch =>
      exact Or.inr ⟨ds, by simp at hl ⊢; omega, hch y hy⟩

/-- Compatibility of an assigned value's depth with a (padded) selector
chain, read off the update rules: at the base (vector) level the value
must be a scalar or a vector; a `Single` selector passes the value
unchanged to the child level; `All` and `List` selectors distribute a
scalar unchanged or descend componentwise into the value, which at the
matrix level requires the value to be at most matrix-deep (the
`isinstance(val, Mat)` dispatch sends deeper values into the
scalar-distributing branch). -/
def fitsGo : List Sel → Nat → Bool
  | [], _ => false
  | [_], dv => dv ≤ 1
  | Sel.single _ :: r1 :: rest, dv => fitsGo (r1 :: rest) dv
  | Sel.all :: r1 :: rest, dv =>
    if dv == 0 then fitsGo (r1 :: rest) 0
    else if rest.length == 0 && 2 < dv then false
    else fitsGo (r1 :: rest) (dv - 1)
  | Sel.list _ :: r1 :: rest, dv =>
    if dv == 0 then fitsGo (r1 :: rest) 0
    else if rest.length == 0 && 2 < dv then false
    else fitsGo (r1 :: rest) (dv - 1)

/-- Compatibility at the top of an update: mirrors the promotion and
`All`-padding each class performs before descending. -/
def fits (v : Obj) (idx : List Sel) (dv : Nat) : Bool :=
  match v with
  | .vec _ _ => fitsGo idx dv
  | .mat _ _ =>
    if idx.length > 2 then fitsGo (idx ++ [Sel.all]) dv
    else fitsGo (idx ++ List.replicate (2 - idx.length) Sel.all) dv
  | .arr _ d =>
    if idx.length > d.length then fitsGo idx dv
    else fitsGo (idx ++ List.replicate (d.length - idx.length) Sel.all) dv
  | _ => false

/-- Unfolding of `fitsGo` at an `All` selector above the base level. -/
theorem fitsGo_all {r1 : Sel} {rest : List Sel} {dv : Nat}
    (h : fitsGo (Sel.all :: r1 :: rest) dv = true) :
    fitsGo (r1 :: rest) (dv - 1) = true ∧ (rest.length = 0 → dv ≤ 2) := by
  simp only [fitsGo] at h
  split at h
  · next hc =>
    simp at hc
    subst hc
    exact ⟨h, fun _ => by omega⟩
  · next hc =>
    simp at hc
    split at h
    · cases h
    · next hc2 =>
      simp at hc2
      exact ⟨h, fun hr => hc2 (List.length_eq_zero.mp hr)⟩

/-- Unfolding of `fitsGo` at a `List` selector above the base level. -/
theorem fitsGo_list {i : List Int} {r1 : Sel} {rest : List Sel} {dv : Nat}
    (h : fitsGo (Sel.list i :: r1 :: rest) dv = true) :
    fitsGo (r1 :: rest) (dv - 1) = true ∧ (rest.length = 0 → dv ≤ 2) := by
  simp only [fitsGo] at h
  split at h
  · next hc =>
    simp at hc
    subst hc
    exact ⟨h, fun _ => by omega⟩
  · next hc =>
    simp at hc
    split at h
    · cases h
    · next hc2 =>
      simp at hc2
      exact ⟨h, fun hr => hc2 (List.length_eq_zero.mp hr)⟩

/-- Unfolding of `fitsGo` at a `Single` selector above the base level. -/
theorem fitsGo_single {i : Int} {r1 : Sel} {rest : List Sel} {dv : Nat}
    (h : fitsGo (Sel.single i :: r1 :: rest) dv = true) :
    fitsGo (r1 :: rest) dv = true := by
  simpa [fitsGo] using h

/-- Unfolding of `fitsGo` at the base level. -/
theorem fitsGo_base {s : Sel} {dv : Nat} (h : fitsGo [s] dv = true) : dv ≤ 1 := by
  simpa [fitsGo] using h

/-- A successful in-place write: the length is preserved and every
element of the result is an old element or the written value. -/
theorem setEl_ok {l : List Obj} {i : Int} {x : Obj} {l2 : List Obj}
    (h : setEl l i x = .ok l2) :
    l2.length = l.length ∧ ∀ y ∈ l2, y ∈ l ∨ y = x := by
  unfold setEl at h
  split at h
  · cases h
    exact ⟨List.length_set l i.toNat x, fun y hy => List.mem_or_eq_of_mem_set hy⟩
  · exact Except.noConfusion h

/-- A monadic fold whose body preserves an invariant preserves it. -/
theorem foldlM_preserve {α : Type} {body : List Obj → α → Except Errno (List Obj)}
    {Q : List Obj → Prop}
    (hbody : ∀ cur x res, Q cur → body cur x = .ok res → Q res) :
    ∀ (l : List α) (init res : List Obj), Q init →
      l.foldlM body init = .ok res → Q res := by
  intro l
  induction l with
  | nil =>
    intro init res hq h
    simp only [List.foldlM_nil] at h
    cases h
    exact hq
  | cons x t ih =>
    intro init res hq h
    rw [List.foldlM_cons] at h
    obtain ⟨mid, hmid, hrest⟩ := bind_ok h
    exact ih mid res (hbody init x mid hq hmid) hrest

/-- A successful componentwise map over an index range pairs each
original child with the matching child of the value. -/
theorem range_mapM_pair {k : Nat} {e ve : List Obj}
    {F : Obj → Obj → Except Errno Obj} {P : Obj → Prop} {ch : List Obj}
    (hF : ∀ it ∈ e, ∀ vi ∈ ve, ∀ r, F it vi = .ok r → P r)
    (h : (List.range k).mapM (fun i => do
      let it ← getEl e (i : Int)
      let vi ← getEl ve (i : Int)
      F it vi) = .ok ch) :
    ch.length = k ∧ ∀ x ∈ ch, P x := by
  obtain ⟨hl, hm⟩ := mapM_ok_mem2 h
  refine ⟨by simpa using hl, fun x hx => ?_⟩
  obtain ⟨i, hi, hgi⟩ := hm x hx
  obtain ⟨it, hit, h2⟩ := bind_ok hgi
  obtain ⟨vi, hvi, h3⟩ := bind_ok h2
  exact hF it (getEl_mem hit) vi (getEl_mem hvi) x h3

/-- A legitimate value of depth zero is a scalar. -/
theorem ValOk_zero {val : Obj} (h : ValOk val 0) : ∃ x : Int, val = .sc x := by
  rcases h with ⟨_, x, rfl⟩ | ⟨dvs, hl0, hw⟩
  · exact ⟨x, rfl⟩
  · rw [List.length_eq_zero] at hl0
    subst hl0
    cases hw

/-- A legitimate value of depth one or two is a `Vec` or a `Mat`
(`isinstance(val, Mat)` holds). -/
theorem ValOk_inst12 {val : Obj} {dv : Nat} (h : ValOk val dv) (h1 : 1 ≤ dv)
    (h2 : dv ≤ 2) : val.isMatInst = true := by
  rcases h with ⟨h0, _, _⟩ | ⟨dvs, hdl, hw⟩
  · omega
  · cases hw with
    | vec es n hlen hsc => rfl
    | mat es r c hlen hch => rfl
    | arr es n ds hds hlen hch => simp at hdl; omega

/-- A legitimate value of positive depth is an array
(`isinstance(val, Arr)` holds). -/
theorem ValOk_arrInst {val : Obj} {dv : Nat} (h : ValOk val dv) (h1 : 1 ≤ dv) :
    val.isArrInst = true := by
  rcases h with ⟨h0, _, _⟩ | ⟨dvs, hdl, hw⟩
  · omega
  · cases hw <;> rfl

/-- A successful conditional whose branches agree yields that branch. -/
theorem ite_same_ok {ε β : Type} {c : Prop} [Decidable c] {x : Except ε β}
    {w : β} (h : (if c then x else x) = .ok w) : x = .ok w := by
  rwa [ite_self] at h

/-- Shape preservation of `update`, by fuel induction: on a well-formed
value, with a chain no longer than the depth and a compatible legitimate
value, a successful `update` returns a well-formed value of the same
shape. -/
theorem updateF_wf_aux : ∀ (fuel : Nat) {v : Obj} {d : List Nat} {idx : List Sel}
    {val : Obj} {dv : Nat} {w : Obj},
    WfA v d → idx.length ≤ d.length → ValOk val dv →
    fitsGo (idx ++ List.replicate (d.length - idx.length) Sel.all) dv = true →
    Obj.updateF fuel v idx val = .ok w → WfA w d := by
  intro fuel
  induction fuel with
  | zero =>
    intro v d idx val dv w _ _ _ _ hr
    exact Except.noConfusion hr
  | succ fuel ih =>
    intro v d idx val dv w h hlen hvo hfits hr
    cases h with
    | vec es n hlenv hsc =>
      rcases idx with _ | ⟨s, _ | ⟨s2, t⟩⟩
      · exact Except.noConfusion hr
      · have hdv : dv ≤ 1 := fitsGo_base hfits
        rcases hvo with ⟨hdl0, x, rfl⟩ | ⟨dvs, hdl, hwv⟩
        · cases s with
          | all =>
            have hw := Except.ok.inj hr
            subst hw
            have hl2 : (List.replicate (List.headD [n] 0) (Obj.sc x)).length = n := by
              simp
            simp only [mkVec]
            rw [hl2]
            exact WfA.vec _ n hl2
              (fun e he => ⟨x, List.eq_of_mem_replicate he⟩)
          | list ids =>
            obtain ⟨cur, hfold, hwr⟩ := bind_ok hr
            have hw := Except.ok.inj hwr
            subst hw
            have hbody : ∀ (cur2 : List Obj) (j : Int) (res : List Obj),
                (cur2.length = n ∧ ∀ y ∈ cur2, ∃ ix : Int, y = .sc ix) →
                (if j < 0 || j ≥ (([n] : List Nat).headD 0 : Int)
                  then throw (Errno.idxBound j)
                  else setEl cur2 j (Obj.sc x)) = .ok res →
                res.length = n ∧ ∀ y ∈ res, ∃ ix : Int, y = .sc ix := by
              intro cur2 j res hq hb
              obtain ⟨hbnd, hb2⟩ := ite_err_ok hb
              obtain ⟨hl3, hm3⟩ := setEl_ok hb2
              refine ⟨by rw [hl3]; exact hq.1, fun y hy => ?_⟩
              rcases hm3 y hy with h4 | h4
              · exact hq.2 y h4
              · exact ⟨x, h4⟩
            obtain ⟨hql, hqs⟩ :=
              foldlM_preserve hbody ids es cur ⟨hlenv, hsc⟩ hfold
            simp only [mkVec]
            rw [hql]
            exact WfA.vec cur n hql hqs
          | single i =>
            obtain ⟨hbnd, hr2⟩ := ite_err_ok hr
            obtain ⟨cur, hset, hwr⟩ := bind_ok hr2
            have hw := Except.ok.inj hwr
            subst hw
            obtain ⟨hl3, hm3⟩ := setEl_ok hset
            have hql : cur.length = n := by rw [hl3]; exact hlenv
            simp only [mkVec]
            rw [hql]
            refine WfA.vec cur n hql (fun y hy => ?_)
            rcases hm3 y hy with h4 | h4
            · exact hsc y h4
            · exact ⟨x, h4⟩
        · cases hwv with
          | vec ve m hlv hscv =>
            cases s with
            | all =>
              obtain ⟨hne, hr2⟩ := ite_err_ok hr
              have hw := Except.ok.inj hr2
              subst hw
              have hnm : n = m := by
                simpa [Obj.dim0, Obj.dim] using hne
              simp only [mkVec, Obj.elemL]
              rw [hlv, ← hnm]
              exact WfA.vec ve n (hlv.trans hnm.symm) hscv
            | list ids =>
              obtain ⟨hne, hr2⟩ := ite_err_ok hr
              obtain ⟨cur, hfold, hwr⟩ := bind_ok hr2
              have hw := Except.ok.inj hwr
              subst hw
              have hbody : ∀ (cur2 : List Obj) (i : Nat) (res : List Obj),
                  (cur2.length = n ∧ ∀ y ∈ cur2, ∃ ix : Int, y = .sc ix) →
                  (if ids.getD i 0 < 0 ||
                      ids.getD i 0 ≥ (([n] : List Nat).headD 0 : Int)
                    then throw (Errno.idxBound (ids.getD i 0))
                    else do
                      let vi ← getEl (Obj.vec ve [m]).elemL (i : Int)
                      setEl cur2 (ids.getD i 0) vi) = .ok res →
                  res.length = n ∧ ∀ y ∈ res, ∃ ix : Int, y = .sc ix := by
                intro cur2 i res hq hb
                obtain ⟨hbnd, hb2⟩ := ite_err_ok hb
                obtain ⟨vi, hvi, hb3⟩ := bind_ok hb2
                obtain ⟨hl3, hm3⟩ := setEl_ok hb3
                refine ⟨by rw [hl3]; exact hq.1, fun y hy => ?_⟩
                rcases hm3 y hy with h4 | h4
                · exact hq.2 y h4
                · subst h4
                  exact hscv y (by simpa [Obj.elemL] using getEl_mem hvi)
              obtain ⟨hql, hqs⟩ :=
                foldlM_preserve hbody (List.range ids.length) es cur ⟨hlenv, hsc⟩ hfold
              simp only [mkVec]
              rw [hql]
              exact WfA.vec cur n hql hqs
            | single i => exact Except.noConfusion hr
          | mat ve vr vc hlv hchv => exact absurd hdv (by simp at hdl; omega)
          | arr ve vn vds hvds hlv hchv => exact absurd hdv (by simp at hdl; omega)
      · simp at hlen
    | mat es r c hlenm hch =>
      rcases idx with _ | ⟨s1, _ | ⟨s2, _ | ⟨s3, t⟩⟩⟩
      · -- empty chain: the code pads to [All] and recurses with an empty
        -- child chain
        obtain ⟨hf2, hd2⟩ := fitsGo_all hfits
        rcases Nat.eq_zero_or_pos dv with hdv0 | hdvpos
        · subst hdv0
          obtain ⟨x, rfl⟩ := ValOk_zero hvo
          obtain ⟨ch, hmap, hwr⟩ := bind_ok hr
          have hw := Except.ok.inj hwr
          subst hw
          obtain ⟨hcl, hcm⟩ := mapM_ok_mem2 hmap
          refine WfA.mat ch r c (by rw [hcl]; exact hlenm) (fun y hy => ?_)
          obtain ⟨z, hz, hupd⟩ := hcm y hy
          exact ih (hch z hz) (by simp) (Or.inl ⟨rfl, x, rfl⟩) hf2 hupd
        · rcases le_or_lt dv 2 with hdv2 | hdv3
          · have hr2 := ite_ok_elim_pos hr (ValOk_inst12 hvo hdvpos hdv2)
            obtain ⟨hne, hr3⟩ := ite_err_ok hr2
            obtain ⟨ch, hmap, hwr⟩ := bind_ok hr3
            have hw := Except.ok.inj hwr
            subst hw
            have hF : ∀ it ∈ es, ∀ vi ∈ val.elemL, ∀ r2 : Obj,
                Obj.updateF fuel it ([] : List Sel) vi = .ok r2 → WfA r2 [c] :=
              fun it hit vi hvi r2 hF2 =>
                ih (hch it hit) (by simp) (ValOk_child hvo vi hvi) hf2 hF2
            obtain ⟨hcl, hcm⟩ := range_mapM_pair hF hmap
            exact WfA.mat ch r c (by rw [hcl]; simp) hcm
          · exact absurd (hd2 (by simp)) (by omega)
      · -- one selector: the code pads to [s1, All]
        cases s1 with
        | all =>
          obtain ⟨hf2, hd2⟩ := fitsGo_all hfits
          rcases Nat.eq_zero_or_pos dv with hdv0 | hdvpos
          · subst hdv0
            obtain ⟨x, rfl⟩ := ValOk_zero hvo
            obtain ⟨ch, hmap, hwr⟩ := bind_ok hr
            have hw := Except.ok.inj hwr
            subst hw
            obtain ⟨hcl, hcm⟩ := mapM_ok_mem2 hmap
            refine WfA.mat ch r c (by rw [hcl]; exact hlenm) (fun y hy => ?_)
            obtain ⟨z, hz, hupd⟩ := hcm y hy
            exact ih (hch z hz) (by simp) (Or.inl ⟨rfl, x, rfl⟩) hf2 hupd
          · rcases le_or_lt dv 2 with hdv2 | hdv3
            · have hr2 := ite_ok_elim_pos hr (ValOk_inst12 hvo hdvpos hdv2)
              obtain ⟨hne, hr3⟩ := ite_err_ok hr2
              obtain ⟨ch, hmap, hwr⟩ := bind_ok hr3
              have hw := Except.ok.inj hwr
              subst hw
              have hF : ∀ it ∈ es, ∀ vi ∈ val.elemL, ∀ r2 : Obj,
                  Obj.updateF fuel it ([] ++ [Sel.all]) vi = .ok r2 → WfA r2 [c] :=
                fun it hit vi hvi r2 hF2 =>
                  ih (hch it hit) (by simp) (ValOk_child hvo vi hvi) hf2 hF2
              obtain ⟨hcl, hcm⟩ := range_mapM_pair hF hmap
              exact WfA.mat ch r c (by rw [hcl]; simp) hcm
            · exact absurd (hd2 (by simp)) (by omega)
        | list ids =>
          obtain ⟨hf2, hd2⟩ := fitsGo_list hfits
          rcases Nat.eq_zero_or_pos dv with hdv0 | hdvpos
          · subst hdv0
            obtain ⟨x, rfl⟩ := ValOk_zero hvo
            obtain ⟨cur, hfold, hwr⟩ := bind_ok hr
            have hw := Except.ok.inj hwr
            subst hw
            have hbody : ∀ (cur2 : List Obj) (j : Int) (res : List Obj),
                (cur2.length = r ∧ ∀ y ∈ cur2, WfA y [c]) →
                (if j < 0 || j ≥ (([r, c] : List Nat).headD 0 : Int)
                  then throw (Errno.idxBound j)
                  else do
                    let ej ← getEl cur2 j
                    let ej2 ← Obj.updateF fuel ej ([] ++ [Sel.all]) (Obj.sc x)
                    setEl cur2 j ej2) = .ok res →
                res.length = r ∧ ∀ y ∈ res, WfA y [c] := by
              intro cur2 j res hq hb
              obtain ⟨hbnd, hb2⟩ := ite_err_ok hb
              obtain ⟨ej, hej, hb3⟩ := bind_ok hb2
              obtain ⟨ej2, hupd, hb4⟩ := bind_ok hb3
              obtain ⟨hl3, hm3⟩ := setEl_ok hb4
              refine ⟨by rw [hl3]; exact hq.1, fun y hy => ?_⟩
              rcases hm3 y hy with h4 | h4
              · exact hq.2 y h4
              · subst h4
                exact ih (hq.2 ej (getEl_mem hej)) (by simp)
                  (Or.inl ⟨rfl, x, rfl⟩) hf2 hupd
            obtain ⟨hql, hqs⟩ :=
              foldlM_preserve hbody ids es cur ⟨hlenm, hch⟩ hfold
            exact WfA.mat cur r c hql hqs
          · rcases le_or_lt dv 2 with hdv2 | hdv3
            · have hr2 := ite_ok_elim_pos hr (ValOk_inst12 hvo hdvpos hdv2)
              obtain ⟨hne, hr3⟩ := ite_err_ok hr2
              obtain ⟨cur, hfold, hwr⟩ := bind_ok hr3
              have hw := Except.ok.inj hwr
              subst hw
              have hbody : ∀ (cur2 : List Obj) (i : Nat) (res : List Obj),
                  (cur2.length = r ∧ ∀ y ∈ cur2, WfA y [c]) →
                  (if ids.getD i 0 < 0 ||
                      ids.getD i 0 ≥ (([r, c] : List Nat).headD 0 : Int)
                    then throw (Errno.idxBound (ids.getD i 0))
                    else do
                      let ej ← getEl cur2 (ids.getD i 0)
                      let vi ← getEl val.elemL (i : Int)
                      let ej2 ← Obj.updateF fuel ej ([] ++ [Sel.all]) vi
                      setEl cur2 (ids.getD i 0) ej2) = .ok res →
                  res.length = r ∧ ∀ y ∈ res, WfA y [c] := by
                intro cur2 i res hq hb
                obtain ⟨hbnd, hb2⟩ := ite_err_ok hb
                obtain ⟨ej, hej, hb3⟩ := bind_ok hb2
                obtain ⟨vi, hvi, hb4⟩ := bind_ok hb3
                obtain ⟨ej2, hupd, hb5⟩ := bind_ok hb4
                obtain ⟨hl3, hm3⟩ := setEl_ok hb5
                refine ⟨by rw [hl3]; exact hq.1, fun y hy => ?_⟩
                rcases hm3 y hy with h4 | h4
                · exact hq.2 y h4
                · subst h4
                  exact ih (hq.2 ej (getEl_mem hej)) (by simp)
                    (ValOk_child hvo vi (getEl_mem hvi)) hf2 hupd
              obtain ⟨hql, hqs⟩ :=
                foldlM_preserve hbody (List.range ids.length) es cur ⟨hlenm, hch⟩ hfold
              exact WfA.mat cur r c hql hqs
            · exact absurd (hd2 (by simp)) (by omega)
        | single i =>
          have hf2 := fitsGo_single hfits
          have hr2 := ite_same_ok hr
          obtain ⟨hbnd, hr3⟩ := ite_err_ok hr2
          obtain ⟨ei, hei, h4⟩ := bind_ok hr3
          obtain ⟨ei2, hupd, h5⟩ := bind_ok h4
          obtain ⟨cur, hset, h6⟩ := bind_ok h5
          have hw := Except.ok.inj h6
          subst hw
          obtain ⟨hl3, hm3⟩ := setEl_ok hset
          refine WfA.mat cur r c (by rw [hl3]; exact hlenm) (fun y hy => ?_)
          rcases hm3 y hy with h7 | h7
          · exact hch y h7
          · subst h7
            exact ih (hch ei (getEl_mem hei)) (by simp) hvo hf2 hupd
      · -- two selectors: the chain is used as is
        cases s1 with
        | all =>
          obtain ⟨hf2, hd2⟩ := fitsGo_all hfits
          rcases Nat.eq_zero_or_pos dv with hdv0 | hdvpos
          · subst hdv0
            obtain ⟨x, rfl⟩ := ValOk_zero hvo
            obtain ⟨ch, hmap, hwr⟩ := bind_ok hr
            have hw := Except.ok.inj hwr
            subst hw
            obtain ⟨hcl, hcm⟩ := mapM_ok_mem2 hmap
            refine WfA.mat ch r c (by rw [hcl]; exact hlenm) (fun y hy => ?_)
            obtain ⟨z, hz, hupd⟩ := hcm y hy
            exact ih (hch z hz) (by simp) (Or.inl ⟨rfl, x, rfl⟩) hf2 hupd
          · rcases le_or_lt dv 2 with hdv2 | hdv3
            · have hr2 := ite_ok_elim_pos hr (ValOk_inst12 hvo hdvpos hdv2)
              obtain ⟨hne, hr3⟩ := ite_err_ok hr2
              obtain ⟨ch, hmap, hwr⟩ := bind_ok hr3
              have hw := Except.ok.inj hwr
              subst hw
              have hF : ∀ it ∈ es, ∀ vi ∈ val.elemL, ∀ r2 : Obj,
                  Obj.updateF fuel it [s2] vi = .ok r2 → WfA r2 [c] :=
                fun it hit vi hvi r2 hF2 =>
                  ih (hch it hit) (by simp) (ValOk_child hvo vi hvi) hf2 hF2
              obtain ⟨hcl, hcm⟩ := range_mapM_pair hF hmap
              exact WfA.mat ch r c (by rw [hcl]; simp) hcm
            · exact absurd (hd2 (by simp)) (by omega)
        | list ids =>
          obtain ⟨hf2, hd2⟩ := fitsGo_list hfits
          rcases Nat.eq_zero_or_pos dv with hdv0 | hdvpos
          · subst hdv0
            obtain ⟨x, rfl⟩ := ValOk_zero hvo
            obtain ⟨cur, hfold, hwr⟩ := bind_ok hr
            have hw := Except.ok.inj hwr
            subst hw
            have hbody : ∀ (cur2 : List Obj) (j : Int) (res : List Obj),
                (cur2.length = r ∧ ∀ y ∈ cur2, WfA y [c]) →
                (if j < 0 || j ≥ (([r, c] : List Nat).headD 0 : Int)
                  then throw (Errno.idxBound j)
                  else do
                    let ej ← getEl cur2 j
                    let ej2 ← Obj.updateF fuel ej [s2] (Obj.sc x)
                    setEl cur2 j ej2) = .ok res →
                res.length = r ∧ ∀ y ∈ res, WfA y [c] := by
              intro cur2 j res hq hb
              obtain ⟨hbnd, hb2⟩ := ite_err_ok hb
              obtain ⟨ej, hej, hb3⟩ := bind_ok hb2
              obtain ⟨ej2, hupd, hb4⟩ := bind_ok hb3
              obtain ⟨hl3, hm3⟩ := setEl_ok hb4
              refine ⟨by rw [hl3]; exact hq.1, fun y hy => ?_⟩
              rcases hm3 y hy with h4 | h4
              · exact hq.2 y h4
              · subst h4
                exact ih (hq.2 ej (getEl_mem hej)) (by simp)
                  (Or.inl ⟨rfl, x, rfl⟩) hf2 hupd
            obtain ⟨hql, hqs⟩ :=
              foldlM_preserve hbody ids es cur ⟨hlenm, hch⟩ hfold
            exact WfA.mat cur r c hql hqs
          · rcases le_or_lt dv 2 with hdv2 | hdv3
            · have hr2 := ite_ok_elim_pos hr (ValOk_inst12 hvo hdvpos hdv2)
              obtain ⟨hne, hr3⟩ := ite_err_ok hr2
              obtain ⟨cur, hfold, hwr⟩ := bind_ok hr3
              have hw := Except.ok.inj hwr
              subst hw
              have hbody : ∀ (cur2 : List Obj) (i : Nat) (res : List Obj),
                  (cur2.length = r ∧ ∀ y ∈ cur2, WfA y [c]) →
                  (if ids.getD i 0 < 0 ||
                      ids.getD i 0 ≥ (([r, c] : List Nat).headD 0 : Int)
                    then throw (Errno.idxBound (ids.getD i 0))
                    else do
                      let ej ← getEl cur2 (ids.getD i 0)
                      let vi ← getEl val.elemL (i : Int)
                      let ej2 ← Obj.updateF fuel ej [s2] vi
                      setEl cur2 (ids.getD i 0) ej2) = .ok res →
                  res.length = r ∧ ∀ y ∈ res, WfA y [c] := by
                intro cur2 i res hq hb
                obtain ⟨hbnd, hb2⟩ := ite_err_ok hb
                obtain ⟨ej, hej, hb3⟩ := bind_ok hb2
                obtain ⟨vi, hvi, hb4⟩ := bind_ok hb3
                obtain ⟨ej2, hupd, hb5⟩ := bind_ok hb4
                obtain ⟨hl3, hm3⟩ := setEl_ok hb5
                refine ⟨by rw [hl3]; exact hq.1, fun y hy => ?_⟩
                rcases hm3 y hy with h4 | h4
                · exact hq.2 y h4
                · subst h4
                  exact ih (hq.2 ej (getEl_mem hej)) (by simp)
                    (ValOk_child hvo vi (getEl_mem hvi)) hf2 hupd
              obtain ⟨hql, hqs⟩ :=
                foldlM_preserve hbody (List.range ids.length) es cur ⟨hlenm, hch⟩ hfold
              exact WfA.mat cur r c hql hqs
            · exact absurd (hd2 (by simp)) (by omega)
        | single i =>
          have hf2 := fitsGo_single hfits
          have hr2 := ite_same_ok hr
          obtain ⟨hbnd, hr3⟩ := ite_err_ok hr2
          obtain ⟨ei, hei, h4⟩ := bind_ok hr3
          obtain ⟨ei2, hupd, h5⟩ := bind_ok h4
          obtain ⟨cur, hset, h6⟩ := bind_ok h5
          have hw := Except.ok.inj h6
          subst hw
          obtain ⟨hl3, hm3⟩ := setEl_ok hset
          refine WfA.mat cur r c (by rw [hl3]; exact hlenm) (fun y hy => ?_)
          rcases hm3 y hy with h7 | h7
          · exact hch y h7
          · subst h7
            exact ih (hch ei (getEl_mem hei)) (by simp) hvo hf2 hupd
      · simp at hlen
    | arr es nn ds hds hlenA hch =>
      rcases ds with _ | ⟨d1, ds2⟩
      · simp at hds
      have hlen2 : idx.length ≤ ds2.length + 2 := by simpa using hlen
      have hr2 := ite_ok_elim hr (show ¬(idx.length > ds2.length + 2) by omega)
      obtain ⟨s, rest0, hpe⟩ : ∃ s rest0,
          idx ++ List.replicate (List.length (nn :: d1 :: ds2) - idx.length) Sel.all =
            s :: rest0 := by
        cases hq : idx ++ List.replicate (List.length (nn :: d1 :: ds2) - idx.length) Sel.all with
        | nil =>
          have hlq := congrArg List.length hq
          simp at hlq
          obtain ⟨h1, h2⟩ := hlq
          subst h1
          simp at h2
        | cons a b => exact ⟨a, b, rfl⟩
      have hlpe := congrArg List.length hpe
      simp at hlpe
      have hrest : rest0.length = ds2.length + 1 := by omega
      rw [hpe] at hr2
      rw [hpe] at hfits
      rcases rest0 with _ | ⟨r1, rest1⟩
      · simp at hrest
      have hpad : (r1 :: rest1) ++
          List.replicate (List.length (d1 :: ds2) - List.length (r1 :: rest1)) Sel.all =
          r1 :: rest1 := by
        have h0 : List.length (d1 :: ds2) - List.length (r1 :: rest1) = 0 := by
          simp at hrest ⊢
          omega
        rw [h0]
        simp
      have hchld : ∀ z : Obj, WfA z (d1 :: ds2) → ∀ (v2 : Obj) (dv2 : Nat),
          ValOk v2 dv2 → fitsGo (r1 :: rest1) dv2 = true → ∀ r2 : Obj,
          Obj.updateF fuel z (r1 :: rest1) v2 = .ok r2 → WfA r2 (d1 :: ds2) := by
        intro z hz v2 dv2 hv2 hf3 r2 hr9
        refine ih hz (by simp at hrest ⊢; omega) hv2 ?_ hr9
        rw [hpad]
        exact hf3
      cases s with
      | all =>
        obtain ⟨hf2, _⟩ := fitsGo_all hfits
        rcases Nat.eq_zero_or_pos dv with hdv0 | hdvpos
        · subst hdv0
          obtain ⟨x, rfl⟩ := ValOk_zero hvo
          obtain ⟨ch, hmap, hwr⟩ := bind_ok hr2
          have hw := Except.ok.inj hwr
          subst hw
          obtain ⟨hcl, hcm⟩ := mapM_ok_mem2 hmap
          refine WfA.arr ch nn (d1 :: ds2) hds (by rw [hcl]; exact hlenA)
            (fun y hy => ?_)
          obtain ⟨z, hz, hupd⟩ := hcm y hy
          exact hchld z (hch z hz) _ 0 (Or.inl ⟨rfl, x, rfl⟩) hf2 y hupd
        · have hr3 := ite_ok_elim_pos hr2 (ValOk_arrInst hvo hdvpos)
          obtain ⟨hne, hr4⟩ := ite_err_ok hr3
          obtain ⟨ch, hmap, hwr⟩ := bind_ok hr4
          have hw := Except.ok.inj hwr
          subst hw
          have hF : ∀ it ∈ es, ∀ vi ∈ val.elemL, ∀ r2 : Obj,
              Obj.updateF fuel it (r1 :: rest1) vi = .ok r2 → WfA r2 (d1 :: ds2) :=
            fun it hit vi hvi r2 hF2 =>
              hchld it (hch it hit) vi (dv - 1) (ValOk_child hvo vi hvi) hf2 r2 hF2
          obtain ⟨hcl, hcm⟩ := range_mapM_pair hF hmap
          exact WfA.arr ch nn (d1 :: ds2) hds (by rw [hcl]; simp) hcm
      | list ids =>
        obtain ⟨hf2, _⟩ := fitsGo_list hfits
        rcases Nat.eq_zero_or_pos dv with hdv0 | hdvpos
        · subst hdv0
          obtain ⟨x, rfl⟩ := ValOk_zero hvo
          obtain ⟨cur, hfold, hwr⟩ := bind_ok hr2
          have hw := Except.ok.inj hwr
          subst hw
          have hbody : ∀ (cur2 : List Obj) (j : Int) (res : List Obj),
              (cur2.length = nn ∧ ∀ y ∈ cur2, WfA y (d1 :: ds2)) →
              (if j < 0 || j ≥ (List.headD (nn :: d1 :: ds2) 0 : Int)
                then throw (Errno.idxBound j)
                else do
                  let ej ← getEl cur2 j
                  let ej2 ← Obj.updateF fuel ej (r1 :: rest1) (Obj.sc x)
                  setEl cur2 j ej2) = .ok res →
              res.length = nn ∧ ∀ y ∈ res, WfA y (d1 :: ds2) := by
            intro cur2 j res hq hb
            obtain ⟨hbnd, hb2⟩ := ite_err_ok hb
            obtain ⟨ej, hej, hb3⟩ := bind_ok hb2
            obtain ⟨ej2, hupd, hb4⟩ := bind_ok hb3
            obtain ⟨hl3, hm3⟩ := setEl_ok hb4
            refine ⟨by rw [hl3]; exact hq.1, fun y hy => ?_⟩
            rcases hm3 y hy with h4 | h4
            · exact hq.2 y h4
            · subst h4
              exact hchld ej (hq.2 ej (getEl_mem hej)) _ 0
                (Or.inl ⟨rfl, x, rfl⟩) hf2 y hupd
          obtain ⟨hql, hqs⟩ :=
            foldlM_preserve hbody ids es cur ⟨hlenA, hch⟩ hfold
          exact WfA.arr cur nn (d1 :: ds2) hds hql hqs
        · have hr3 := ite_ok_elim_pos hr2 (ValOk_arrInst hvo hdvpos)
          obtain ⟨hne, hr4⟩ := ite_err_ok hr3
          obtain ⟨cur, hfold, hwr⟩ := bind_ok hr4
          have hw := Except.ok.inj hwr
          subst hw
          have hbody : ∀ (cur2 : List Obj) (i : Nat) (res : List Obj),
              (cur2.length = nn ∧ ∀ y ∈ cur2, WfA y (d1 :: ds2)) →
              (if ids.getD i 0 < 0 ||
                  ids.getD i 0 ≥ (List.headD (nn :: d1 :: ds2) 0 : Int)
                then throw (Errno.idxBound (ids.getD i 0))
                else do
                  let ej ← getEl cur2 (ids.getD i 0)
                  let vi ← getEl val.elemL (i : Int)
                  let ej2 ← Obj.updateF fuel ej (r1 :: rest1) vi
                  setEl cur2 (ids.getD i 0) ej2) = .ok res →
              res.length = nn ∧ ∀ y ∈ res, WfA y (d1 :: ds2) := by
            intro cur2 i res hq hb
            obtain ⟨hbnd, hb2⟩ := ite_err_ok hb
            obtain ⟨ej, hej, hb3⟩ := bind_ok hb2
            obtain ⟨vi, hvi, hb4⟩ := bind_ok hb3
            obtain ⟨ej2, hupd, hb5⟩ := bind_ok hb4
            obtain ⟨hl3, hm3⟩ := setEl_ok hb5
            refine ⟨by rw [hl3]; exact hq.1, fun y hy => ?_⟩
            rcases hm3 y hy with h4 | h4
            · exact hq.2 y h4
            · subst h4
              exact hchld ej (hq.2 ej (getEl_mem hej)) vi (dv - 1)
                (ValOk_child hvo vi (getEl_mem hvi)) hf2 y hupd
          obtain ⟨hql, hqs⟩ :=
            foldlM_preserve hbody (List.range ids.length) es cur ⟨hlenA, hch⟩ hfold
          exact WfA.arr cur nn (d1 :: ds2) hds hql hqs
      | single i =>
        have hf2 := fitsGo_single hfits
        have hr3 := ite_same_ok hr2
        obtain ⟨hbnd, hr4⟩ := ite_err_ok hr3
        obtain ⟨ei, hei, h4⟩ := bind_ok hr4
        obtain ⟨ei2, hupd, h5⟩ := bind_ok h4
        obtain ⟨cur, hset, h6⟩ := bind_ok h5
        have hw := Except.ok.inj h6
        subst hw
        obtain ⟨hl3, hm3⟩ := setEl_ok hset
        refine WfA.arr cur nn (d1 :: ds2) hds (by rw [hl3]; exact hlenA)
          (fun y hy => ?_)
        rcases hm3 y hy with h7 | h7
        · exact hch y h7
        · subst h7
          exact hchld ei (hch ei (getEl_mem hei)) val dv hvo hf2 y hupd

/-- Application of a scalar operation to two scalars. -/
theorem applyF_sc_sc {f : Int → Int → Int} {fuel : Nat} {x y : Int} {w : Obj}
    (h : Obj.applyF f fuel (.sc x) (.sc y) = .ok w) : w = .sc (f x y) := by
  cases fuel with
  | zero => exact Except.noConfusion h
  | succ fuel => exact (Except.ok.inj h).symm

/-- A scalar distributed over a well-formed array from the left
preserves the shape. -/
theorem applyF_sc_wf {f : Int → Int → Int} :
    ∀ (fuel : Nat) {x : Int} {b : Obj} {db : List Nat} {w : Obj},
    WfA b db → Obj.applyF f fuel (.sc x) b = .ok w → WfA w db := by
  intro fuel
  induction fuel with
  | zero =>
    intro x b db w _ hr
    exact Except.noConfusion hr
  | succ fuel ih =>
    intro x b db w hb hr
    cases hb with
    | vec be m hlb hscb =>
      obtain ⟨res, hmap, hwr⟩ := bind_ok hr
      have hw := Except.ok.inj hwr
      subst hw
      obtain ⟨hrl, hrm⟩ := mapM_ok_mem2 hmap
      have hrn : res.length = m := by rw [hrl]; exact hlb
      simp only [mkVec]
      rw [hrn]
      refine WfA.vec res m hrn (fun y hy => ?_)
      obtain ⟨z, hz, hgz⟩ := hrm y hy
      obtain ⟨iy, rfl⟩ := hscb z hz
      exact ⟨f x iy, applyF_sc_sc hgz⟩
    | mat be r c hlb hchb =>
      obtain ⟨res, hmap, hwr⟩ := bind_ok hr
      have hw := Except.ok.inj hwr
      subst hw
      obtain ⟨hrl, hrm⟩ := mapM_ok_mem2 hmap
      refine WfA.mat res r c (by rw [hrl]; exact hlb) (fun y hy => ?_)
      obtain ⟨z, hz, hgz⟩ := hrm y hy
      exact ih (hchb z hz) hgz
    | arr be bn bds hbds hlb hchb =>
      obtain ⟨res, hmap, hwr⟩ := bind_ok hr
      have hw := Except.ok.inj hwr
      subst hw
      obtain ⟨hrl, hrm⟩ := mapM_ok_mem2 hmap
      refine WfA.arr res bn bds hbds (by rw [hrl]; exact hlb) (fun y hy => ?_)
      obtain ⟨z, hz, hgz⟩ := hrm y hy
      exact ih (hchb z hz) hgz

/-- A scalar distributed over a well-formed array from the right
preserves the shape. -/
theorem applyF_wf_sc {f : Int → Int → Int} :
    ∀ (fuel : Nat) {y : Int} {a : Obj} {da : List Nat} {w : Obj},
    WfA a da → Obj.applyF f fuel a (.sc y) = .ok w → WfA w da := by
  intro fuel
  induction fuel with
  | zero =>
    intro y a da w _ hr
    exact Except.noConfusion hr
  | succ fuel ih =>
    intro y a da w ha hr
    cases ha with
    | vec ae m hla hsca =>
      obtain ⟨res, hmap, hwr⟩ := bind_ok hr
      have hw := Except.ok.inj hwr
      subst hw
      obtain ⟨hrl, hrm⟩ := mapM_ok_mem2 hmap
      have hrn : res.length = m := by rw [hrl]; exact hla
      simp only [mkVec]
      rw [hrn]
      refine WfA.vec res m hrn (fun z hz2 => ?_)
      obtain ⟨z2, hz3, hgz⟩ := hrm z hz2
      obtain ⟨iz, rfl⟩ := hsca z2 hz3
      exact ⟨f iz y, applyF_sc_sc hgz⟩
    | mat ae r c hla hcha =>
      obtain ⟨res, hmap, hwr⟩ := bind_ok hr
      have hw := Except.ok.inj hwr
      subst hw
      obtain ⟨hrl, hrm⟩ := mapM_ok_mem2 hmap
      refine WfA.mat res r c (by rw [hrl]; exact hla) (fun z hz2 => ?_)
      obtain ⟨z2, hz3, hgz⟩ := hrm z hz2
      exact ih (hcha z2 hz3) hgz
    | arr ae an ads hads hla hcha =>
      obtain ⟨res, hmap, hwr⟩ := bind_ok hr
      have hw := Except.ok.inj hwr
      subst hw
      obtain ⟨hrl, hrm⟩ := mapM_ok_mem2 hmap
      refine WfA.arr res an ads hads (by rw [hrl]; exact hla) (fun z hz2 => ?_)
      obtain ⟨z2, hz3, hgz⟩ := hrm z hz2
      exact ih (hcha z2 hz3) hgz

/-- Componentwise application of two equal-depth well-formed arrays
returns a well-formed array of the left operand's shape. -/
theorem applyF_eq_wf {f : Int → Int → Int} :
    ∀ (fuel : Nat) {a : Obj} {da : List Nat} {b : Obj} {db : List Nat} {w : Obj},
    WfA a da → WfA b db → da.length = db.length →
    Obj.applyF f fuel a b = .ok w → WfA w da := by
  intro fuel
  induction fuel with
  | zero =>
    intro a da b db w _ _ _ hr
    exact Except.noConfusion hr
  | succ fuel ih =>
    intro a da b db w ha hb hlen hr
    cases ha with
    | vec ae m hla hsca =>
      cases hb with
      | vec be m2 hlb hscb =>
        obtain ⟨hne, hr2⟩ := ite_err_ok hr
        obtain ⟨res, hmap, hwr⟩ := bind_ok hr2
        have hw := Except.ok.inj hwr
        subst hw
        have hF : ∀ it ∈ ae, ∀ vi ∈ be, ∀ r2 : Obj,
            Obj.applyF f fuel it vi = .ok r2 → ∃ ix : Int, r2 = .sc ix := by
          intro it hit vi hvi r2 hF2
          obtain ⟨ix, rfl⟩ := hsca it hit
          obtain ⟨iy, rfl⟩ := hscb vi hvi
          exact ⟨f ix iy, applyF_sc_sc hF2⟩
        obtain ⟨hcl, hcm⟩ := range_mapM_pair hF hmap
        have hrn : res.length = m := by rw [hcl]; simp [Obj.dim0, Obj.dim]
        simp only [mkVec]
        rw [hrn]
        exact WfA.vec res m hrn hcm
      | mat be r2 c2 hlb hchb => simp at hlen
      | arr be bn bds hbds hlb hchb =>
        exact absurd hbds (by simp only [List.length_cons, List.length_nil] at hlen; omega)
    | mat ae r c hla hcha =>
      cases hb with
      | vec be m2 hlb hscb => simp at hlen
      | mat be r2 c2 hlb hchb =>
        obtain ⟨hne, hr2⟩ := ite_err_ok hr
        obtain ⟨res, hmap, hwr⟩ := bind_ok hr2
        have hw := Except.ok.inj hwr
        subst hw
        have hF : ∀ it ∈ ae, ∀ vi ∈ be, ∀ r3 : Obj,
            Obj.applyF f fuel it vi = .ok r3 → WfA r3 [c] :=
          fun it hit vi hvi r3 hF2 =>
            ih (hcha it hit) (hchb vi hvi) rfl hF2
        obtain ⟨hcl, hcm⟩ := range_mapM_pair hF hmap
        refine WfA.mat res r c (by rw [hcl]; simp [Obj.dim0, Obj.dim]) hcm
      | arr be bn bds hbds hlb hchb =>
        exact absurd hbds (by simp only [List.length_cons, List.length_nil] at hlen; omega)
    | arr ae an ads hads hla hcha =>
      cases hb with
      | vec be m2 hlb hscb =>
        exact absurd hads (by simp only [List.length_cons, List.length_nil] at hlen; omega)
      | mat be r2 c2 hlb hchb =>
        exact absurd hads (by simp only [List.length_cons, List.length_nil] at hlen; omega)
      | arr be bn bds hbds hlb hchb =>
        have hr2 := ite_ok_elim hr
          (show ¬(List.length (an :: ads) > List.length (bn :: bds)) by
            simp only [List.length_cons] at hlen ⊢; omega)
        have hr3 := ite_ok_elim hr2
          (show ¬(List.length (an :: ads) < List.length (bn :: bds)) by
            simp only [List.length_cons] at hlen ⊢; omega)
        obtain ⟨hne, hr4⟩ := ite_err_ok hr3
        obtain ⟨res, hmap, hwr⟩ := bind_ok hr4
        have hw := Except.ok.inj hwr
        subst hw
        have hF : ∀ it ∈ ae, ∀ vi ∈ be, ∀ r3 : Obj,
            Obj.applyF f fuel it vi = .ok r3 → WfA r3 ads :=
          fun it hit vi hvi r3 hF2 =>
            ih (hcha it hit) (hchb vi hvi)
              (by simp only [List.length_cons] at hlen; omega) hF2
        obtain ⟨hcl, hcm⟩ := range_mapM_pair hF hmap
        exact WfA.arr res an ads hads (by rw [hcl]; simp [Obj.dim0, Obj.dim]) hcm

/-- Well-formedness preservation of the broadcasting binary application:
on two well-formed arrays a success returns a well-formed array (the
shallower side is promoted to equal depth first). -/
theorem applyF_wf {f : Int → Int → Int} {fuel : Nat} {a : Obj} {da : List Nat}
    {b : Obj} {db : List Nat} {w : Obj} (ha : WfA a da) (hb : WfA b db)
    (hr : Obj.applyF f fuel a b = .ok w) : ∃ ds, WfA w ds := by
  rcases lt_trichotomy da.length db.length with hlt | heq | hgt
  · cases fuel with
    | zero => exact Except.noConfusion hr
    | succ fuel =>
      have hbig : WfA (a.promote (db.length - da.length))
          (List.replicate (db.length - da.length) 1 ++ da) :=
        promote_wf ha (db.length - da.length)
      have ha2 := ha
      have hb2 := hb
      cases ha with
      | vec ae m hla hsca =>
        cases hb with
        | vec be m2 hlb hscb => simp at hlt
        | mat be r2 c2 hlb hchb =>
          exact ⟨_, applyF_eq_wf fuel hbig hb2 (by simp) hr⟩
        | arr be bn bds hbds hlb hchb =>
          have hr2 := ite_ok_elim_pos hr
            (by simp only [Obj.dim, List.length_cons, List.length_nil] at hlt ⊢; omega)
          exact ⟨_, applyF_eq_wf fuel hbig hb2
            (by simp only [List.length_append, List.length_replicate,
              List.length_cons, List.length_nil] at hlt ⊢; omega) hr2⟩
      | mat ae r c hla hcha =>
        cases hb with
        | vec be m2 hlb hscb => simp at hlt
        | mat be r2 c2 hlb hchb => simp at hlt
        | arr be bn bds hbds hlb hchb =>
          have hr1 := ite_ok_elim hr
            (by simp only [Obj.dim, List.length_cons, List.length_nil] at hlt ⊢; omega)
          have hr2 := ite_ok_elim_pos hr1
            (by simp only [Obj.dim, List.length_cons, List.length_nil] at hlt ⊢; omega)
          exact ⟨_, applyF_eq_wf fuel hbig hb2
            (by simp only [List.length_append, List.length_replicate,
              List.length_cons, List.length_nil] at hlt ⊢; omega) hr2⟩
      | arr ae an ads hads hla hcha =>
        cases hb with
        | vec be m2 hlb hscb =>
          exact absurd hads
            (by simp only [List.length_cons, List.length_nil] at hlt; omega)
        | mat be r2 c2 hlb hchb =>
          exact absurd hads
            (by simp only [List.length_cons, List.length_nil] at hlt; omega)
        | arr be bn bds hbds hlb hchb =>
          have hr1 := ite_ok_elim hr
            (by simp only [Obj.dim, List.length_cons] at hlt ⊢; omega)
          have hr2 := ite_ok_elim_pos hr1
            (by simp only [Obj.dim, List.length_cons] at hlt ⊢; omega)
          exact ⟨_, applyF_eq_wf fuel hbig hb2
            (by simp only [List.length_append, List.length_replicate,
              List.length_cons] at hlt ⊢; omega) hr2⟩
  · exact ⟨da, applyF_eq_wf fuel ha hb heq hr⟩
  · cases fuel with
    | zero => exact Except.noConfusion hr
    | succ fuel =>
      have hbig : WfA (b.promote (da.length - db.length))
          (List.replicate (da.length - db.length) 1 ++ db) :=
        promote_wf hb (da.length - db.length)
      have ha2 := ha
      have hb2 := hb
      cases ha with
      | vec ae m hla hsca =>
        cases hb with
        | vec be m2 hlb hscb => simp at hgt
        | mat be r2 c2 hlb hchb => simp at hgt
        | arr be bn bds hbds hlb hchb =>
          exact absurd hbds
            (by simp only [List.length_cons, List.length_nil] at hgt; omega)
      | mat ae r c hla hcha =>
        cases hb with
        | vec be m2 hlb hscb =>
          exact ⟨_, applyF_eq_wf fuel ha2 hbig (by simp) hr⟩
        | mat be r2 c2 hlb hchb => simp at hgt
        | arr be bn bds hbds hlb hchb =>
          exact absurd hbds
            (by simp only [List.length_cons, List.length_nil] at hgt; omega)
      | arr ae an ads hads hla hcha =>
        cases hb with
        | vec be m2 hlb hscb =>
          have hr2 := ite_ok_elim_pos hr
            (by simp only [Obj.dim, List.length_cons, List.length_nil] at hgt ⊢; omega)
          exact ⟨_, applyF_eq_wf fuel ha2 hbig
            (by simp only [List.length_append, List.length_replicate,
              List.length_cons, List.length_nil] at hgt ⊢; omega) hr2⟩
        | mat be r2 c2 hlb hchb =>
          have hr2 := ite_ok_elim_pos hr
            (by simp only [Obj.dim, List.length_cons, List.length_nil] at hgt ⊢; omega)
          exact ⟨_, applyF_eq_wf fuel ha2 hbig
            (by simp only [List.length_append, List.length_replicate,
              List.length_cons, List.length_nil] at hgt ⊢; omega) hr2⟩
        | arr be bn bds hbds hlb hchb =>
          have hr2 := ite_ok_elim_pos hr
            (by simp only [Obj.dim, List.length_cons] at hgt ⊢; omega)
          exact ⟨_, applyF_eq_wf fuel ha2 hbig
            (by simp only [List.length_append, List.length_replicate,
              List.length_cons] at hgt ⊢; omega) hr2⟩

/-- Well-formedness preservation of `update`, chains of any length: on a
well-formed value, with a legitimate value compatible with the chain, a
successful `update` returns a well-formed array (long chains promote
first - `Mat` by one axis more than its depth requires - and the
promoted value is well-formed). -/
theorem updateF_wf {fuel : Nat} {v : Obj} {d : List Nat} {idx : List Sel}
    {val : Obj} {dv : Nat} {w : Obj}
    (h : WfA v d) (hvo : ValOk val dv) (hfits : fits v idx dv = true)
    (hr : Obj.updateF fuel v idx val = .ok w) : ∃ ds, WfA w ds := by
  cases fuel with
  | zero => exact Except.noConfusion hr
  | succ fuel =>
    cases h with
    | vec es n hlenv hsc =>
      rcases idx with _ | ⟨s, _ | ⟨s2, t⟩⟩
      · exact Except.noConfusion hr
      · refine ⟨[n], updateF_wf_aux (fuel + 1) (WfA.vec es n hlenv hsc)
          (by simp) hvo ?_ hr⟩
        exact hfits
      · have hr2 := ite_ok_elim_pos hr (show (s :: s2 :: t).length > 1 by simp)
        have hw := promote_wf (WfA.vec es n hlenv hsc) ((s :: s2 :: t).length - 1)
        refine ⟨_, updateF_wf_aux fuel hw ?_ hvo ?_ hr2⟩
        · simp only [List.length_append, List.length_replicate, List.length_cons,
            List.length_nil]
          omega
        · have hc : (List.replicate ((s :: s2 :: t).length - 1) 1 ++ [n]).length -
              (s :: s2 :: t).length = 0 := by
            simp only [List.length_append, List.length_replicate, List.length_cons,
              List.length_nil]
            omega
          rw [hc]
          simp only [List.replicate_zero, List.append_nil]
          exact hfits
    | mat es r c hlenm hch =>
      rcases idx with _ | ⟨s1, _ | ⟨s2, _ | ⟨s3, t⟩⟩⟩
      · refine ⟨[r, c], updateF_wf_aux (fuel + 1) (WfA.mat es r c hlenm hch)
          (by simp) hvo ?_ hr⟩
        exact hfits
      · refine ⟨[r, c], updateF_wf_aux (fuel + 1) (WfA.mat es r c hlenm hch)
          (by simp) hvo ?_ hr⟩
        exact hfits
      · refine ⟨[r, c], updateF_wf_aux (fuel + 1) (WfA.mat es r c hlenm hch)
          (by simp) hvo ?_ hr⟩
        exact hfits
      · have hr2 := ite_ok_elim_pos hr
          (show (s1 :: s2 :: s3 :: t).length > 2 by simp)
        have hw := promote_wf (WfA.mat es r c hlenm hch)
          ((s1 :: s2 :: s3 :: t).length - 1)
        refine ⟨_, updateF_wf_aux fuel hw ?_ hvo ?_ hr2⟩
        · simp only [List.length_append, List.length_replicate, List.length_cons,
            List.length_nil]
          omega
        · have hc : (List.replicate ((s1 :: s2 :: s3 :: t).length - 1) 1 ++
              [r, c]).length - (s1 :: s2 :: s3 :: t).length = 1 := by
            simp only [List.length_append, List.length_replicate, List.length_cons,
              List.length_nil]
            omega
          rw [hc, List.replicate_one]
          have hfits2 := hfits
          simp only [fits] at hfits2
          rw [if_pos (by simp)] at hfits2
          exact hfits2
    | arr es nn ds hds hlenA hch =>
      by_cases hl : idx.length ≤ (nn :: ds).length
      · refine ⟨nn :: ds, updateF_wf_aux (fuel + 1)
          (WfA.arr es nn ds hds hlenA hch) hl hvo ?_ hr⟩
        have hfits2 := hfits
        simp only [fits] at hfits2
        rw [if_neg (by omega)] at hfits2
        exact hfits2
      · push_neg at hl
        have hr2 := ite_ok_elim_pos hr hl
        have hw := promote_wf (WfA.arr es nn ds hds hlenA hch)
          (idx.length - (nn :: ds).length)
        refine ⟨_, updateF_wf_aux fuel hw ?_ hvo ?_ hr2⟩
        · simp only [List.length_append, List.length_replicate]
          omega
        · have hc : (List.replicate (idx.length - (nn :: ds).length) 1 ++
              (nn :: ds)).length - idx.length = 0 := by
            simp only [List.length_append, List.length_replicate]
            omega
          rw [hc]
          simp only [List.replicate_zero, List.append_nil]
          have hfits2 := hfits
          simp only [fits] at hfits2
          rw [if_pos (by omega)] at hfits2
          exact hfits2

/-- A well-formed 2-by-2 matrix of scalars. -/
theorem wf_mat22 (a b c2 d2 : Int) :
    WfA (.mat [mkVec [.sc a, .sc b], mkVec [.sc c2, .sc d2]] [2, 2]) [2, 2] := by
  refine WfA.mat _ 2 2 rfl ?_
  intro e he
  simp at he
  rcases he with rfl | rfl
  · refine WfA.vec _ 2 rfl ?_
    intro y hy
    simp at hy
    rcases hy with rfl | rfl
    · exact ⟨a, rfl⟩
    · exact ⟨b, rfl⟩
  · refine WfA.vec _ 2 rfl ?_
    intro y hy
    simp at hy
    rcases hy with rfl | rfl
    · exact ⟨c2, rfl⟩
    · exact ⟨d2, rfl⟩

/-- Claim C10, counterexample: `update` does not preserve
well-formedness on all well-formed inputs.  Assigning the well-formed
2-by-2 matrix `val` into a row of a well-formed 2-by-2 matrix with the
chain `[Single 0, All]` succeeds - `Mat.update` passes `val` unchanged
into the row and `Vec.update`, seeing `type(val) == Vec` fail, takes its
scalar-distributing branch - and fills the row with two copies of the
matrix.  The result is a matrix whose first row is a `Vec` of `Mat`s: no
dimension vector makes it well-formed. -/
theorem c10_update_breaks_wf :
    (∀ fuel : Nat, Obj.updateF (fuel + 2)
      (.mat [mkVec [.sc 1, .sc 2], mkVec [.sc 3, .sc 4]] [2, 2])
      [.single 0, .all]
      (.mat [mkVec [.sc 5, .sc 6], mkVec [.sc 7, .sc 8]] [2, 2]) =
      .ok (.mat [.vec [.mat [mkVec [.sc 5, .sc 6], mkVec [.sc 7, .sc 8]] [2, 2],
                        .mat [mkVec [.sc 5, .sc 6], mkVec [.sc 7, .sc 8]] [2, 2]] [2],
                  mkVec [.sc 3, .sc 4]] [2, 2])) ∧
    WfA (.mat [mkVec [.sc 1, .sc 2], mkVec [.sc 3, .sc 4]] [2, 2]) [2, 2] ∧
    WfA (.mat [mkVec [.sc 5, .sc 6], mkVec [.sc 7, .sc 8]] [2, 2]) [2, 2] ∧
    ∀ ds : List Nat,
      ¬ WfA (.mat [.vec [.mat [mkVec [.sc 5, .sc 6], mkVec [.sc 7, .sc 8]] [2, 2],
                          .mat [mkVec [.sc 5, .sc 6], mkVec [.sc 7, .sc 8]] [2, 2]] [2],
                    mkVec [.sc 3, .sc 4]] [2, 2]) ds := by
  refine ⟨fun fuel => rfl, wf_mat22 1 2 3 4, wf_mat22 5 6 7 8, ?_⟩
  intro ds h
  cases h with
  | mat es r c hlen hch =>
    have h1 := hch (.vec [.mat [mkVec [.sc 5, .sc 6], mkVec [.sc 7, .sc 8]] [2, 2],
      .mat [mkVec [.sc 5, .sc 6], mkVec [.sc 7, .sc 8]] [2, 2]] [2]) (by simp)
    cases h1 with
    | vec es2 n2 hl2 hsc2 =>
      obtain ⟨x, hx⟩ := hsc2
        (.mat [mkVec [.sc 5, .sc 6], mkVec [.sc 7, .sc 8]] [2, 2]) (by simp)
      exact Obj.noConfusion hx

/-- Claim C10, amended: well-formedness is an invariant of the array
operations once the assigned value of `update` is required to be
compatible with the selector chain (`fits`, read off the update rules:
no branch may distribute a non-scalar into a vector) - without that
hypothesis `update` breaks the invariant.  Promotion yields a
well-formed value of the `1`-padded shape; a successful `get` returns a
scalar or a well-formed value; a successful `update` with a legitimate
compatible value returns a well-formed value; a successful broadcasting
binary application on two well-formed arrays returns a well-formed
value. -/
theorem c10_wf_preservation :
    (∀ (v : Obj) (d : List Nat) (n : Nat), WfA v d →
      WfA (v.promote n) (List.replicate n 1 ++ d)) ∧
    (∀ (fuel : Nat) (v : Obj) (d : List Nat) (idx : List Sel) (w : Obj),
      WfA v d → Obj.getF fuel v idx = .ok w →
      (∃ x : Int, w = .sc x) ∨ ∃ ds, WfA w ds) ∧
    (∀ (fuel : Nat) (v : Obj) (d : List Nat) (idx : List Sel) (val : Obj)
      (dv : Nat) (w : Obj), WfA v d → ValOk val dv → fits v idx dv = true →
      Obj.updateF fuel v idx val = .ok w → ∃ ds, WfA w ds) ∧
    (∀ (f : Int → Int → Int) (fuel : Nat) (a b : Obj) (da db : List Nat)
      (w : Obj), WfA a da → WfA b db → Obj.applyF f fuel a b = .ok w →
      ∃ ds, WfA w ds) :=
  ⟨fun _ _ n h => promote_wf h n,
   fun _ _ _ _ _ h hr => getF_wf h hr,
   fun _ _ _ _ _ _ _ h hvo hf hr => updateF_wf h hvo hf hr,
   fun _ _ _ _ _ _ _ ha hb hr => applyF_wf ha hb hr⟩

/-- Claim C10, witness: the amended preservation theorem applied to a
concrete promotion, indexing, update and application on 2-by-2
matrices. -/
theorem c10_wf_preservation_witness :
    WfA (Obj.promote (.mat [mkVec [.sc 1, .sc 2], mkVec [.sc 3, .sc 4]] [2, 2]) 1)
      (List.replicate 1 1 ++ [2, 2]) ∧
    ((∃ x : Int, Obj.sc 1 = Obj.sc x) ∨ ∃ ds, WfA (Obj.sc 1) ds) ∧
    (∃ ds, WfA (Obj.mat [mkVec [.sc 9, .sc 2], mkVec [.sc 3, .sc 4]] [2, 2]) ds) ∧
    (∃ ds, WfA (Obj.mat [mkVec [.sc 6, .sc 8], mkVec [.sc 10, .sc 12]] [2, 2]) ds) := by
  refine ⟨?_, ?_, ?_, ?_⟩
  · exact c10_wf_preservation.1 _ [2, 2] 1 (wf_mat22 1 2 3 4)
  · exact c10_wf_preservation.2.1 3
      (.mat [mkVec [.sc 1, .sc 2], mkVec [.sc 3, .sc 4]] [2, 2]) [2, 2]
      [.single 0, .single 0] (.sc 1) (wf_mat22 1 2 3 4) rfl
  · exact c10_wf_preservation.2.2.1 3
      (.mat [mkVec [.sc 1, .sc 2], mkVec [.sc 3, .sc 4]] [2, 2]) [2, 2]
      [.single 0, .single 0] (.sc 9) 0 _ (wf_mat22 1 2 3 4)
      (Or.inl ⟨rfl, 9, rfl⟩) rfl rfl
  · exact c10_wf_preservation.2.2.2 (fun x y => x + y) 3
      (.mat [mkVec [.sc 1, .sc 2], mkVec [.sc 3, .sc 4]] [2, 2])
      (.mat [mkVec [.sc 5, .sc 6], mkVec [.sc 7, .sc 8]] [2, 2]) [2, 2] [2, 2] _
      (wf_mat22 1 2 3 4) (wf_mat22 5 6 7 8) rfl

end TinyR
